import Mathlib

/-!
The yt-dlp wrapper of gomusic (`src/parsers/ytdlp.go`).

A shallow embedding of `YtdlpWrapper` and of the library functions it calls.

Go strings are byte sequences, so a string is a list of bytes here (`GoString`,
each byte a natural number below 256).  The operating system, the clock and the
extractor subprocess are inputs of the model: every function that touches them
takes the file system, the clock reading or the subprocess behaviour as an
argument and returns the new file system next to its Go results.  Log lines
are not modelled.
-/

set_option autoImplicit false
set_option linter.dupNamespace false

/-- A Go `string` / `[]byte`: its bytes, in order. -/
abbrev GoString := List Nat

/-- A Go `error`: `none` is `nil`, `some m` an error whose `Error()` text is `m`. -/
abbrev GoError := Option GoString

/-- The bytes of an ASCII string literal of the source. -/
def lit (s : String) : GoString := s.toList.map Char.toNat

/-! ## `unicode/utf8` -/

namespace utf8

/-- `utf8.RuneError`, U+FFFD. -/
def RuneError : Nat := 0xFFFD

/-- `utf8.RuneSelf`: bytes below it are single-byte runes. -/
def RuneSelf : Nat := 0x80

/-- `utf8.UTFMax`. -/
def UTFMax : Nat := 4

/-- The table `first`: information about the first byte of an encoding.
`0xF0` (`as`) is ASCII, `0xF1` (`xx`) is invalid, otherwise the low three bits
give the size and the high four bits index `acceptRanges`. -/
def first (b : Nat) : Nat :=
  if b < 0x80 then 0xF0
  else if b < 0xC2 then 0xF1
  else if b < 0xE0 then 0x02
  else if b = 0xE0 then 0x13
  else if b < 0xED then 0x03
  else if b = 0xED then 0x23
  else if b < 0xF0 then 0x03
  else if b = 0xF0 then 0x34
  else if b < 0xF4 then 0x04
  else if b = 0xF4 then 0x44
  else 0xF1

/-- The table `acceptRanges`: the range `(lo, hi)` of valid second bytes. -/
def acceptRanges (i : Nat) : Nat × Nat :=
  match i with
  | 0 => (0x80, 0xBF)
  | 1 => (0xA0, 0xBF)
  | 2 => (0x80, 0x9F)
  | 3 => (0x90, 0xBF)
  | 4 => (0x80, 0x8F)
  | _ => (0, 0)

/-- `utf8.RuneStart`: `b&0xC0 != 0x80`, the byte is not a continuation byte. -/
def RuneStart (b : Nat) : Bool := !(0x80 ≤ b && b < 0xC0)

/-- `utf8.DecodeRuneInString`: the first rune of `s` and its width in bytes;
`(RuneError, 0)` for the empty string and `(RuneError, 1)` for an invalid
encoding.  The masks `b & 0x1F`, `b & 0x0F`, `b & 0x07`, `b & 0x3F` are written
`% 32`, `% 16`, `% 8`, `% 64` and the shifts as multiplications. -/
def DecodeRuneInString (s : GoString) : Nat × Nat :=
  match s with
  | [] => (RuneError, 0)
  | s0 :: t =>
    let x := first s0
    if x ≥ 0xF0 then
      (if x % 2 = 1 then RuneError else s0, 1)
    else
      let sz := x % 8
      let accept := acceptRanges (x / 16)
      if s.length < sz then (RuneError, 1)
      else
        match t with
        | [] => (RuneError, 1)
        | s1 :: t1 =>
          if s1 < accept.1 ∨ accept.2 < s1 then (RuneError, 1)
          else if sz ≤ 2 then ((s0 % 32) * 64 + s1 % 64, 2)
          else
            match t1 with
            | [] => (RuneError, 1)
            | s2 :: t2 =>
              if s2 < 0x80 ∨ 0xBF < s2 then (RuneError, 1)
              else if sz ≤ 3 then ((s0 % 16) * 4096 + (s1 % 64) * 64 + s2 % 64, 3)
              else
                match t2 with
                | [] => (RuneError, 1)
                | s3 :: _ =>
                  if s3 < 0x80 ∨ 0xBF < s3 then (RuneError, 1)
                  else ((s0 % 8) * 262144 + (s1 % 64) * 4096 + (s2 % 64) * 64 + s3 % 64, 4)

/-- The backward search of `DecodeLastRuneInString`:
`for start--; start >= lim; start-- { if RuneStart(s[start]) { break } }`.
The argument counts the positions `lim, …, lim + n - 1` still to visit, from
the highest down; the loop leaves `start = lim - 1` when none is a rune start. -/
def findStart (s : GoString) (lim : Nat) : Nat → Int
  | 0 => (lim : Int) - 1
  | n + 1 => if RuneStart (s.getD (lim + n) 0) then ((lim + n : Nat) : Int) else findStart s lim n

/-- `utf8.DecodeLastRuneInString`: the last rune of `s` and its width. -/
def DecodeLastRuneInString (s : GoString) : Nat × Nat :=
  let e := s.length
  if e = 0 then (RuneError, 0)
  else
    let r := s.getD (e - 1) 0
    if r < RuneSelf then (r, 1)
    else
      let lim := e - UTFMax
      let start := (findStart s lim (e - 1 - lim)).toNat
      let (r, size) := DecodeRuneInString (s.drop start)
      if start + size ≠ e then (RuneError, 1) else (r, size)

end utf8

/-! ## `unicode` -/

namespace unicode

/-- `unicode.IsSpace`: the Latin-1 spaces, and beyond Latin-1 the code points of
the `White_Space` range table. -/
def IsSpace (r : Nat) : Bool :=
  if r ≤ 0xFF then
    r = 0x09 || r = 0x0A || r = 0x0B || r = 0x0C || r = 0x0D || r = 0x20 || r = 0x85 || r = 0xA0
  else
    r = 0x1680 || (0x2000 ≤ r && r ≤ 0x200A) || r = 0x2028 || r = 0x2029 || r = 0x202F
      || r = 0x205F || r = 0x3000

end unicode

/-! ## `strings` -/

namespace strings

/-- The table `asciiSpace` of `strings`. -/
def asciiSpace (c : Nat) : Bool :=
  c = 0x09 || c = 0x0A || c = 0x0B || c = 0x0C || c = 0x0D || c = 0x20

/-- The loop of `indexFunc`, `for i, r := range s`: `i` is the byte offset of
`s` in the whole string; the first argument bounds the number of runes. -/
def indexFuncLoop (f : Nat → Bool) (truth : Bool) : Nat → Nat → GoString → Int
  | 0, _, _ => -1
  | fuel + 1, i, s =>
    match s with
    | [] => -1
    | _ :: _ =>
      let rs := utf8.DecodeRuneInString s
      if f rs.1 == truth then (i : Int) else indexFuncLoop f truth fuel (i + rs.2) (s.drop rs.2)

/-- `strings.indexFunc`: the offset of the first rune `r` with `f r = truth`, or `-1`. -/
def indexFunc (s : GoString) (f : Nat → Bool) (truth : Bool) : Int :=
  indexFuncLoop f truth s.length 0 s

/-- The loop of `lastIndexFunc`, `for i := len(s); i > 0; { … }`; the first
argument bounds the number of runes. -/
def lastIndexFuncLoop (s : GoString) (f : Nat → Bool) (truth : Bool) : Nat → Nat → Int
  | 0, _ => -1
  | fuel + 1, i =>
    if i > 0 then
      let rs := utf8.DecodeLastRuneInString (s.take i)
      let i1 := i - rs.2
      if f rs.1 == truth then (i1 : Int) else lastIndexFuncLoop s f truth fuel i1
    else -1

/-- `strings.lastIndexFunc`: the offset of the last rune `r` with `f r = truth`, or `-1`. -/
def lastIndexFunc (s : GoString) (f : Nat → Bool) (truth : Bool) : Int :=
  lastIndexFuncLoop s f truth s.length s.length

/-- `strings.TrimLeftFunc`. -/
def TrimLeftFunc (s : GoString) (f : Nat → Bool) : GoString :=
  let i := indexFunc s f false
  if i = -1 then [] else s.drop i.toNat

/-- `strings.TrimRightFunc`. -/
def TrimRightFunc (s : GoString) (f : Nat → Bool) : GoString :=
  let i := lastIndexFunc s f false
  if 0 ≤ i ∧ s.getD i.toNat 0 ≥ utf8.RuneSelf then
    s.take (i.toNat + (utf8.DecodeRuneInString (s.drop i.toNat)).2)
  else
    s.take (i + 1).toNat

/-- `strings.TrimFunc`. -/
def TrimFunc (s : GoString) (f : Nat → Bool) : GoString :=
  TrimRightFunc (TrimLeftFunc s f) f

/-- The second loop of `strings.TrimSpace`, over `u = s[start:]` with
`n = stop - start`: look for the last ASCII non-space byte, falling back to
`TrimRightFunc` at a non-ASCII byte. -/
def trimSpaceStop (u : GoString) : Nat → GoString
  | 0 => []
  | n + 1 =>
    let c := u.getD n 0
    if c ≥ utf8.RuneSelf then TrimRightFunc (u.take (n + 1)) unicode.IsSpace
    else if asciiSpace c then trimSpaceStop u n
    else u.take (n + 1)

/-- `strings.TrimSpace`: `s` without its leading and trailing white space.  The
recursion is the first loop (over `start`). -/
def TrimSpace : GoString → GoString
  | [] => []
  | c :: cs =>
    if c ≥ utf8.RuneSelf then TrimFunc (c :: cs) unicode.IsSpace
    else if asciiSpace c then TrimSpace cs
    else trimSpaceStop (c :: cs) (cs.length + 1)

/-- `strings.HasPrefix`. -/
def HasPrefix (s pre : GoString) : Bool :=
  decide (pre.length ≤ s.length) && s.take pre.length == pre

/-- `strings.Split(s, sep)` for a one-byte separator `sep`: the pieces of `s`
between the occurrences of the byte, never an empty list. -/
def Split (s : GoString) (sep : Nat) : List GoString :=
  match s with
  | [] => [[]]
  | c :: cs =>
    if c = sep then [] :: Split cs sep
    else
      match Split cs sep with
      | [] => [[c]]
      | l :: ls => (c :: l) :: ls

end strings

/-! ## `YtdlpWrapper.GetStreamURL`: the parsing step -/

/-- The loop `for i := len(lines) - 1; i >= 0; i--` of `GetStreamURL`, with the
final `return "", fmt.Errorf(…)`; the argument is `i + 1`. -/
def GetStreamURL_scan (lines : List GoString) : Nat → GoString × GoError
  | 0 => ([], some (lit "no valid URL found in output"))
  | i + 1 =>
    let line := strings.TrimSpace (lines.getD i [])
    if strings.HasPrefix line (lit "http") then (line, none)
    else GetStreamURL_scan lines i

/-- Lines 68-81 of `GetStreamURL`: what the function returns for the standard
output `stdout` of a successful subprocess run. -/
def GetStreamURL_parse (stdout : GoString) : GoString × GoError :=
  let lines := strings.Split stdout 0x0A
  if lines.length = 0 then ([], some (lit "no valid URL found in output"))
  else GetStreamURL_scan lines lines.length

/-! ## `encoding/base64`: `StdEncoding.DecodeString` -/

namespace base64

/-- The table `decodeMap` of `StdEncoding`: the six-bit value of an alphabet
byte (`A-Z`, `a-z`, `0-9`, `+`, `/`), `0xFF` for any other byte. -/
def decodeMap (c : Nat) : Nat :=
  if 0x41 ≤ c ∧ c ≤ 0x5A then c - 0x41
  else if 0x61 ≤ c ∧ c ≤ 0x7A then c - 0x61 + 26
  else if 0x30 ≤ c ∧ c ≤ 0x39 then c - 0x30 + 52
  else if c = 0x2B then 62
  else if c = 0x2F then 63
  else 0xFF

/-- The loop `for si < len(src) && (src[si] == '\n' || src[si] == '\r') { si++ }`. -/
def skipNewlines : GoString → GoString
  | [] => []
  | c :: cs => if c = 0x0A ∨ c = 0x0D then skipNewlines cs else c :: cs

/-- The reading loop of `decodeQuantum`, `for j := 0; j < len(dbuf); j++`:
`dbuf` holds the `j` six-bit values read so far, the list is `src[si:]`.
`some (dbuf, rest)` is a quantum of `dlen = dbuf.length` values read with the
input continuing at `rest`; `none` is any `CorruptInputError`.  The padding
byte of `StdEncoding` is `=`, line breaks are skipped. -/
def readQuantum (dbuf : List Nat) : GoString → Option (List Nat × GoString)
  | [] => if dbuf.length = 0 then some ([], []) else none
  | c :: cs =>
    if decodeMap c ≠ 0xFF then
      if dbuf.length + 1 = 4 then some (dbuf ++ [decodeMap c], cs)
      else readQuantum (dbuf ++ [decodeMap c]) cs
    else if c = 0x0A ∨ c = 0x0D then readQuantum dbuf cs
    else if c ≠ 0x3D then none
    else if dbuf.length < 2 then none
    else if dbuf.length = 2 then
      match skipNewlines cs with
      | [] => none
      | d :: ds =>
        if d ≠ 0x3D then none
        else if skipNewlines ds ≠ [] then none
        else some (dbuf, [])
    else if skipNewlines cs ≠ [] then none
    else some (dbuf, [])

/-- The conversion at the end of `decodeQuantum`: `dlen` six-bit values give
`dlen - 1` bytes of `val = dbuf[0]<<18 | dbuf[1]<<12 | dbuf[2]<<6 | dbuf[3]`. -/
def quantumBytes (dbuf : List Nat) : GoString :=
  let val := dbuf.getD 0 0 * 262144 + dbuf.getD 1 0 * 4096 + dbuf.getD 2 0 * 64 + dbuf.getD 3 0
  [val / 65536 % 256, val / 256 % 256, val % 256].take (dbuf.length - 1)

/-- The loop `for si < len(src)` of `Encoding.Decode`, one `decodeQuantum` a
turn (the 8- and 4-byte fast paths decode the same quanta); the first argument
bounds the number of quanta. -/
def decodeLoop : Nat → GoString → Option GoString
  | 0, _ => some []
  | fuel + 1, src =>
    if src = [] then some []
    else
      match readQuantum [] src with
      | none => none
      | some (dbuf, rest) =>
        match decodeLoop fuel rest with
        | none => none
        | some out => some (quantumBytes dbuf ++ out)

/-- `base64.StdEncoding.DecodeString`: `some bytes` when `err == nil`, `none`
when it is a `CorruptInputError` (the bytes Go returns next to an error are
dropped: the wrapper overwrites them). -/
def DecodeString (s : GoString) : Option GoString := decodeLoop s.length s

/-- The alphabet of `StdEncoding`: the byte for a six-bit value. -/
def encodeStd (v : Nat) : Nat :=
  if v < 26 then 0x41 + v
  else if v < 52 then 0x61 + (v - 26)
  else if v < 62 then 0x30 + (v - 52)
  else if v = 62 then 0x2B
  else 0x2F

/-- `base64.StdEncoding.EncodeToString`: three bytes give four alphabet bytes,
a remainder of one or two bytes is padded with `=`. -/
def EncodeToString : GoString → GoString
  | [] => []
  | [a] => [encodeStd (a / 4), encodeStd (a % 4 * 16), 0x3D, 0x3D]
  | [a, b] => [encodeStd (a / 4), encodeStd (a % 4 * 16 + b / 16), encodeStd (b % 16 * 4), 0x3D]
  | a :: b :: c :: t =>
    encodeStd (a / 4) :: encodeStd (a % 4 * 16 + b / 16) :: encodeStd (b % 16 * 4 + c / 64)
      :: encodeStd (c % 64) :: EncodeToString t

end base64

/-! ## `os`: the file system -/

/-- What a path names: a regular file with its contents, or a directory. -/
inductive Node where
  | file (data : GoString)
  | dir
  deriving DecidableEq, Repr

/-- The file system as the wrapper sees it: the nodes by path (the first entry
of a path counts) and the paths on which the operating system refuses to
create, write or remove (access rights, a read-only volume, a file held open).
Paths are compared as written. -/
structure FileSystem where
  nodes : List (GoString × Node)
  denied : List GoString
  deriving DecidableEq, Repr

namespace FileSystem

/-- The node at `p`, if any. -/
def stat (fs : FileSystem) (p : GoString) : Option Node :=
  (fs.nodes.find? (fun e => decide (e.1 = p))).map (fun e => e.2)

/-- The file system with `p` naming `n`. -/
def put (fs : FileSystem) (p : GoString) (n : Node) : FileSystem :=
  { fs with nodes := (p, n) :: fs.nodes.filter (fun e => decide (e.1 ≠ p)) }

/-- The file system without `p`. -/
def unlink (fs : FileSystem) (p : GoString) : FileSystem :=
  { fs with nodes := fs.nodes.filter (fun e => decide (e.1 ≠ p)) }

/-- Whether some path lies below the directory `p`. -/
def hasChild (fs : FileSystem) (p : GoString) : Bool :=
  fs.nodes.any (fun e => strings.HasPrefix e.1 (p ++ [0x2F]) && decide (e.1 ≠ p ++ [0x2F]))

end FileSystem

namespace os

/-- `os.WriteFile(name, data, perm)`: create or truncate `name` and write
`data`; an error, and no change, when the system refuses or `name` is a
directory. -/
def WriteFile (fs : FileSystem) (name data : GoString) : FileSystem × GoError :=
  if name ∈ fs.denied then (fs, some (lit "open " ++ name ++ lit ": permission denied"))
  else
    match fs.stat name with
    | some Node.dir => (fs, some (lit "open " ++ name ++ lit ": is a directory"))
    | _ => (fs.put name (Node.file data), none)

/-- `os.Remove(name)`: remove the file or empty directory `name`; an error, and
no change, when nothing is there, the system refuses, or the directory is not
empty. -/
def Remove (fs : FileSystem) (name : GoString) : FileSystem × GoError :=
  match fs.stat name with
  | none => (fs, some (lit "remove " ++ name ++ lit ": no such file or directory"))
  | some (Node.file _) =>
    if name ∈ fs.denied then (fs, some (lit "remove " ++ name ++ lit ": permission denied"))
    else (fs.unlink name, none)
  | some Node.dir =>
    if name ∈ fs.denied then (fs, some (lit "remove " ++ name ++ lit ": permission denied"))
    else if fs.hasChild name then (fs, some (lit "remove " ++ name ++ lit ": directory not empty"))
    else (fs.unlink name, none)

/-- `os.MkdirAll(path, perm)` for a path whose parent exists (the wrapper calls
it on `./cache`): nothing to do for a directory, an error for a file or when
the system refuses, a new directory otherwise. -/
def MkdirAll (fs : FileSystem) (path : GoString) : FileSystem × GoError :=
  match fs.stat path with
  | some Node.dir => (fs, none)
  | some (Node.file _) => (fs, some (lit "mkdir " ++ path ++ lit ": not a directory"))
  | none =>
    if path ∈ fs.denied then (fs, some (lit "mkdir " ++ path ++ lit ": permission denied"))
    else (fs.put path Node.dir, none)

end os

/-! ## `path/filepath` (Unix) -/

namespace filepath

/-- One component of `Clean`: empty and `.` components are dropped, `..` drops
the component before it (or stays, in front of a path that is not rooted), any
other is kept.  The components kept so far are in reverse order. -/
def cleanStep (rooted : Bool) (kept : List GoString) (c : GoString) : List GoString :=
  if c = [] ∨ c = lit "." then kept
  else if c = lit ".." then
    match kept with
    | top :: rest => if top = lit ".." then c :: kept else rest
    | [] => if rooted then [] else [c]
  else c :: kept

/-- `filepath.Clean`: the shortest path equivalent to `path` by lexical processing. -/
def Clean (path : GoString) : GoString :=
  if path = [] then lit "."
  else
    let rooted := decide (path.head? = some 0x2F)
    let kept := (strings.Split path 0x2F).foldl (cleanStep rooted) []
    let body := (lit "/").intercalate kept.reverse
    if rooted then 0x2F :: body
    else if body = [] then lit "."
    else body

/-- `filepath.Join`: the elements from the first non-empty one on, joined by
`/` and cleaned. -/
def Join (elem : List GoString) : GoString :=
  match elem.dropWhile (fun e => decide (e = [])) with
  | [] => []
  | es => Clean ((lit "/").intercalate es)

/-- `filepath.Abs`, with the result `(wd, err)` of `os.Getwd` as an input. -/
def Abs (getwd : GoString × GoError) (path : GoString) : GoString × GoError :=
  if path.head? = some 0x2F then (Clean path, none)
  else
    match getwd.2 with
    | some e => ([], some e)
    | none => (Join [getwd.1, path], none)

end filepath

/-! ## `time` -/

/-- A reading of the wall clock in the local zone, as `time.Now()` presents it
to `Format`. -/
structure Time where
  year : Int
  month : Nat
  day : Nat
  hour : Nat
  minute : Nat
  second : Nat
  nanosecond : Nat
  deriving DecidableEq, Repr

namespace Time

/-- The fields of a clock reading are in their calendar ranges. -/
def Valid (t : Time) : Prop :=
  1 ≤ t.month ∧ t.month ≤ 12 ∧ 1 ≤ t.day ∧ t.day ≤ 31 ∧ t.hour < 24 ∧ t.minute < 60
    ∧ t.second < 60 ∧ t.nanosecond < 1000000000

instance (t : Time) : Decidable t.Valid := by unfold Valid; infer_instance

/-- The loop of `appendInt` that assembles the decimal digits of `u` in reverse
order, `for u > 0 { … u /= 10 }`; the first argument bounds the number of digits. -/
def digitsLoop : Nat → Nat → GoString → GoString
  | 0, _, acc => acc
  | fuel + 1, u, acc => if u = 0 then acc else digitsLoop fuel (u / 10) ((0x30 + u % 10) :: acc)

/-- The decimal digits of `u`, `0` for zero. -/
def decimal (u : Nat) : GoString :=
  if u = 0 then [0x30] else digitsLoop u u []

/-- `appendInt(b, x, width)` of package `time`, without the `b`: a minus sign
for a negative `x`, then the decimal digits of `|x|` padded with zeros to
`width`. -/
def appendInt (x : Int) (width : Nat) : GoString :=
  let u := x.natAbs
  (if x < 0 then [0x2D] else []) ++ List.replicate (width - (decimal u).length) 0x30 ++ decimal u

/-- `t.Format("20060102_150405")`: the chunks `2006`, `01`, `02`, the literal
`_`, `15`, `04`, `05`. -/
def Format (t : Time) : GoString :=
  appendInt t.year 4 ++ appendInt t.month 2 ++ appendInt t.day 2 ++ [0x5F]
    ++ appendInt t.hour 2 ++ appendInt t.minute 2 ++ appendInt t.second 2

end Time

/-! ## `github.com/lrstanley/go-ytdlp` -/

namespace ytdlp

/-- A command-line option of the extractor: its identifier, its flag and the
arguments of the flag. -/
structure Flag where
  ID : String
  Flag : String
  Args : List GoString
  deriving DecidableEq, Repr

/-- A `ytdlp.Command`: the options set so far, in the order of the builder
calls.  The wrapper sets every option at most once for a command. -/
structure Command where
  flags : List Flag
  deriving DecidableEq, Repr

/-- A `ytdlp.Result`: the captured standard output and the exit code. -/
structure Result where
  Stdout : GoString
  ExitCode : Int
  deriving DecidableEq, Repr

/-- `ytdlp.New()`. -/
def New : Command := { flags := [] }

/-- The method `addFlag`. -/
def Command.addFlag (c : Command) (f : Flag) : Command := { flags := c.flags ++ [f] }

/-- `Cookies(file)`: `--cookies file`. -/
def Command.Cookies (c : Command) (file : GoString) : Command :=
  c.addFlag { ID := "cookiefile", Flag := "--cookies", Args := [file] }

/-- `GetURL()`: `--get-url`. -/
def Command.GetURL (c : Command) : Command :=
  c.addFlag { ID := "geturl", Flag := "--get-url", Args := [] }

/-- `DumpJSON()`: `--dump-json`. -/
def Command.DumpJSON (c : Command) : Command :=
  c.addFlag { ID := "dumpjson", Flag := "--dump-json", Args := [] }

/-- `SkipDownload()`: `--skip-download`. -/
def Command.SkipDownload (c : Command) : Command :=
  c.addFlag { ID := "skip_download", Flag := "--skip-download", Args := [] }

/-- `Output(template)`: `--output template`. -/
def Command.Output (c : Command) (template : GoString) : Command :=
  c.addFlag { ID := "outtmpl", Flag := "--output", Args := [template] }

/-- `NoPart()`: `--no-part`. -/
def Command.NoPart (c : Command) : Command :=
  c.addFlag { ID := "nopart", Flag := "--no-part", Args := [] }

/-- `NoPlaylist()`: `--no-playlist`. -/
def Command.NoPlaylist (c : Command) : Command :=
  c.addFlag { ID := "noplaylist", Flag := "--no-playlist", Args := [] }

/-- `NoOverwrites()`: `--no-overwrites`. -/
def Command.NoOverwrites (c : Command) : Command :=
  c.addFlag { ID := "overwrites", Flag := "--no-overwrites", Args := [] }

/-- `NoKeepVideo()`: `--no-keep-video`. -/
def Command.NoKeepVideo (c : Command) : Command :=
  c.addFlag { ID := "keepvideo", Flag := "--no-keep-video", Args := [] }

/-- `Format(selector)`: `--format selector`. -/
def Command.Format (c : Command) (selector : GoString) : Command :=
  c.addFlag { ID := "format", Flag := "--format", Args := [selector] }

/-- What one run of the extractor subprocess does: the `(result, err)` that
`Run` returns (the result is never `nil`) and the file system it leaves. -/
structure Outcome where
  result : Result
  err : GoError
  fs : FileSystem

/-- The extractor subprocess, `(*Command).Run(ctx, url)`: any function of the
command, the deadline of the context in nanoseconds (`none` without one), the
URL and the file system. -/
abbrev Runner := Command → Option Nat → GoString → FileSystem → Outcome

end ytdlp

/-! ## `parsers.YtdlpWrapper` (`src/parsers/ytdlp.go`) -/

/-- The struct `YtdlpWrapper`. -/
structure YtdlpWrapper where
  cookiePath : GoString
  deriving DecidableEq, Repr

/-- Modelled from the spec: the struct `Meta` of package `parsers`, whose
declaration is not in the source files at hand: "a structured metadata record
(title, duration, uploader, and an origin tag identifying which extractor
produced it)". -/
structure Meta where
  Title : GoString
  Duration : Int
  Uploader : GoString
  Parser : GoString
  deriving DecidableEq, Repr

/-- The zero value `Meta{}`. -/
def Meta.zero : Meta := { Title := [], Duration := 0, Uploader := [], Parser := [] }

/-- `json.Unmarshal(data, &meta)` as an input of the model: from the bytes and
the record before the call to the record after it and the error. -/
abbrev Unmarshal := GoString → Meta → Meta × GoError

/-- `fmt.Errorf(format + ": %w", err)`: the text before the verb, then the text
of the wrapped error. -/
def Errorf (pre : GoString) (err : GoString) : GoError := some (pre ++ err)

/-- The variable `decoded` of `NewYtdlpWrapper` at the call of `os.WriteFile`:
the result of `DecodeString`, or `[]byte(encodedCookies)` after an error. -/
def decodedCookies (encodedCookies : GoString) : GoString :=
  match base64.DecodeString encodedCookies with
  | some d => d
  | none => encodedCookies

/-- `NewYtdlpWrapper`: `getenv` is `os.Getenv`, `fs` the file system before the
call; the result is the wrapper and the file system after the call. -/
def NewYtdlpWrapper (getenv : GoString → GoString) (fs : FileSystem) : YtdlpWrapper × FileSystem :=
  let encodedCookies := getenv (lit "YOUTUBE_COOKIES")
  if encodedCookies ≠ [] then
    let decoded := decodedCookies encodedCookies
    let path := lit "./cookies.txt"
    match os.WriteFile fs path decoded with
    | (fs1, some _) => ({ cookiePath := [] }, fs1)
    | (fs1, none) => ({ cookiePath := path }, fs1)
  else ({ cookiePath := [] }, fs)

/-- The method `getClient`. -/
def YtdlpWrapper.getClient (y : YtdlpWrapper) : ytdlp.Command :=
  let cmd := ytdlp.New
  if y.cookiePath ≠ [] then cmd.Cookies y.cookiePath else cmd

/-- The command of `GetStreamURL`, `y.getClient().GetURL()`. -/
def YtdlpWrapper.streamCommand (y : YtdlpWrapper) : ytdlp.Command :=
  y.getClient.GetURL

/-- The method `GetStreamURL`; `context.TODO()` has no deadline.  The file
system the subprocess leaves is returned with the Go results. -/
def YtdlpWrapper.GetStreamURL (y : YtdlpWrapper) (run : ytdlp.Runner) (url : GoString)
    (fs : FileSystem) : (GoString × GoError) × FileSystem :=
  let o := run y.streamCommand none url fs
  match o.err with
  | some e => (([], Errorf (lit "failed to execute yt-dlp: ") e), o.fs)
  | none => (GetStreamURL_parse o.result.Stdout, o.fs)

/-- The command of `GetMetaInfo`,
`y.getClient().DumpJSON().SkipDownload().Output(timestamp + ".%(ext)s")`. -/
def YtdlpWrapper.metaCommand (y : YtdlpWrapper) (now : Time) : ytdlp.Command :=
  ((y.getClient.DumpJSON).SkipDownload).Output (now.Format ++ lit ".%(ext)s")

/-- Lines 95-103 of `GetMetaInfo`: what the function returns for the standard
output of a successful subprocess run. -/
def GetMetaInfo_parse (unmarshal : Unmarshal) (stdout : GoString) : Meta × GoError :=
  match unmarshal stdout Meta.zero with
  | (_, some e) => (Meta.zero, Errorf (lit "failed to unmarshal JSON: ") e)
  | (meta, none) => ({ meta with Parser := lit "yt-dlp" }, none)

/-- The method `GetMetaInfo`; `now` is the reading of `time.Now()`. -/
def YtdlpWrapper.GetMetaInfo (y : YtdlpWrapper) (run : ytdlp.Runner) (unmarshal : Unmarshal)
    (now : Time) (url : GoString) (fs : FileSystem) : (Meta × GoError) × FileSystem :=
  let o := run (y.metaCommand now) none url fs
  match o.err with
  | some e => ((Meta.zero, Errorf (lit "failed to execute yt-dlp: ") e), o.fs)
  | none => (GetMetaInfo_parse unmarshal o.result.Stdout, o.fs)

/-- The variable `cacheDir` of `DownloadStream`. -/
def cacheDir : GoString := lit "./cache"

/-- The variable `outputFile` of `DownloadStream`,
`filepath.Join(cacheDir, time.Now().Format("20060102_150405"))`. -/
def outputFile (now : Time) : GoString := filepath.Join [cacheDir, now.Format]

/-- The command of `DownloadStream`. -/
def YtdlpWrapper.downloadCommand (y : YtdlpWrapper) (now : Time) : ytdlp.Command :=
  ((((((y.getClient.NoPart).NoPlaylist).NoOverwrites).NoKeepVideo).Format (lit "bestaudio")).Output
    (outputFile now))

/-- The deadline of `context.WithTimeout(context.Background(), 5*time.Minute)`,
in nanoseconds. -/
def downloadTimeout : Nat := 5 * 60 * 1000000000

/-- The method `DownloadStream`: `quote` is the verb `%q` of `fmt` on a string
(`strconv.Quote`), `getwd` the result of `os.Getwd`, `now` the reading of
`time.Now()`, `fs` the file system before the call.  The results are
`(result, path, err)` and the file system after the call. -/
def YtdlpWrapper.DownloadStream (y : YtdlpWrapper) (run : ytdlp.Runner)
    (quote : GoString → GoString) (getwd : GoString × GoError) (now : Time) (url : GoString)
    (fs : FileSystem) : (Option ytdlp.Result × GoString × GoError) × FileSystem :=
  match os.MkdirAll fs cacheDir with
  | (fs1, some e) => ((none, [], Errorf (lit "failed to create cache directory: ") e), fs1)
  | (fs1, none) =>
    let o := run (y.downloadCommand now) (some downloadTimeout) url fs1
    match o.err with
    | some e =>
      let fs2 := (os.Remove o.fs (outputFile now)).1
      ((none, [], Errorf (lit "failed to download stream from URL " ++ quote url ++ lit ": ") e),
        fs2)
    | none =>
      match filepath.Abs getwd (outputFile now) with
      | (_, some e) =>
        ((none, [],
          Errorf (lit "failed to resolve absolute path for " ++ quote (outputFile now) ++ lit ": ")
            e), o.fs)
      | (absPath, none) => ((some o.result, absPath, none), o.fs)

/-! ## Notions used in the statements and proofs -/

namespace utf8

/-- The results of `DecodeRuneInString`, by shape of the input: empty, ASCII,
invalid, or a well-formed encoding of two, three or four bytes whose decoding
does not depend on what follows it. -/
inductive DecodeShape : GoString → Nat → Nat → Prop
  | empty : DecodeShape [] RuneError 0
  | ascii (a : Nat) (t : GoString) : a < 0x80 → DecodeShape (a :: t) a 1
  | invalid (a : Nat) (t : GoString) : 0x80 ≤ a → DecodeShape (a :: t) RuneError 1
  | two (a b r : Nat) (t : GoString) : 0xC2 ≤ a → 0x80 ≤ b → b ≤ 0xBF →
      (∀ w, DecodeRuneInString (a :: b :: w) = (r, 2)) → DecodeShape (a :: b :: t) r 2
  | three (a b c r : Nat) (t : GoString) : 0xC2 ≤ a → 0x80 ≤ b → b ≤ 0xBF → 0x80 ≤ c → c ≤ 0xBF →
      (∀ w, DecodeRuneInString (a :: b :: c :: w) = (r, 3)) → DecodeShape (a :: b :: c :: t) r 3
  | four (a b c d r : Nat) (t : GoString) : 0xC2 ≤ a → 0x80 ≤ b → b ≤ 0xBF → 0x80 ≤ c → c ≤ 0xBF →
      0x80 ≤ d → d ≤ 0xBF →
      (∀ w, DecodeRuneInString (a :: b :: c :: d :: w) = (r, 4)) →
      DecodeShape (a :: b :: c :: d :: t) r 4

end utf8

/-- The byte at offset `i` of `s`, if there is one, starts a rune. -/
def StartOK (s : GoString) (i : Nat) : Prop :=
  ∀ b, (s.drop i).head? = some b → utf8.RuneStart b = true

/-- The number a string of decimal digits denotes. -/
def digitsValue (l : GoString) : Nat := l.foldl (fun a d => a * 10 + (d - 0x30)) 0

/-- Every byte is one of `0`-`9`. -/
def AllDigits (l : GoString) : Prop := ∀ b, b ∈ l → 0x30 ≤ b ∧ b ≤ 0x39

/-- The digits `appendInt` writes after the sign. -/
def paddedDigits (u width : Nat) : GoString :=
  List.replicate (width - (Time.decimal u).length) 0x30 ++ Time.decimal u

/-- The bytes `Format` writes are digits, `_` and `-`. -/
def FormatByte (b : Nat) : Prop := (0x30 ≤ b ∧ b ≤ 0x39) ∨ b = 0x5F ∨ b = 0x2D

/-- The cookie options of a command. -/
def cookieFlags (c : ytdlp.Command) : List ytdlp.Flag :=
  c.flags.filter (fun f => decide (f.Flag = "--cookies"))

/-- A stand-in for `json.Unmarshal` that knows one document,
`{"title":"Song","duration":120}`, and rejects every other input. -/
def sampleUnmarshal : Unmarshal := fun data meta =>
  if data = lit "\x7b\"title\":\"Song\",\"duration\":120\x7d" then
    ({ meta with Title := lit "Song", Duration := 120 }, none)
  else (meta, some (lit "unexpected end of JSON input"))

/-- A subprocess that writes a partial file at the output path of the clock
reading 2024-01-02 03:04:05, leaves it held open so that the system refuses to
remove it, and fails. -/
def heldOpenRun : ytdlp.Runner := fun _ _ _ fs =>
  { result := { Stdout := [], ExitCode := 1 },
    err := some (lit "exit status 1"),
    fs := { nodes := (lit "cache/20240102_030405", Node.file (lit "partial")) :: fs.nodes,
            denied := lit "cache/20240102_030405" :: fs.denied } }

/-! ## Theorems -/

open utf8

/-! ### `unicode/utf8` -/

theorem first_cases (b : Nat) :
    (b < 0x80 ∧ first b = 0xF0) ∨ ((0x80 ≤ b ∧ b < 0xC2 ∨ 0xF5 ≤ b) ∧ first b = 0xF1)
    ∨ (0xC2 ≤ b ∧ b < 0xE0 ∧ first b = 0x02) ∨ (b = 0xE0 ∧ first b = 0x13)
    ∨ ((0xE1 ≤ b ∧ b < 0xED ∨ b = 0xEE ∨ b = 0xEF) ∧ first b = 0x03) ∨ (b = 0xED ∧ first b = 0x23)
    ∨ (b = 0xF0 ∧ first b = 0x34) ∨ (0xF1 ≤ b ∧ b < 0xF4 ∧ first b = 0x04)
    ∨ (b = 0xF4 ∧ first b = 0x44) := by
  unfold first
  split_ifs with h1 h2 h3 h4 h5 h6 h7 h8 h9 h10
  · left; exact ⟨h1, rfl⟩
  · right; left; exact ⟨Or.inl ⟨by omega, h2⟩, rfl⟩
  · right; right; left; exact ⟨by omega, h3, rfl⟩
  · right; right; right; left; exact ⟨h4, rfl⟩
  · right; right; right; right; left; exact ⟨Or.inl ⟨by omega, h5⟩, rfl⟩
  · right; right; right; right; right; left; exact ⟨h6, rfl⟩
  · right; right; right; right; left; exact ⟨by omega, rfl⟩
  · right; right; right; right; right; right; left; exact ⟨h8, rfl⟩
  · right; right; right; right; right; right; right; left; exact ⟨by omega, h9, rfl⟩
  · right; right; right; right; right; right; right; right; exact ⟨h10, rfl⟩
  · right; left; exact ⟨Or.inr (by omega), rfl⟩

theorem DecodeRuneInString_two (a b : Nat) (t : GoString) (x : Nat) (hx : first a = x)
    (hx8 : x % 8 = 2) (hxlt : x < 0xF0) :
    DecodeRuneInString (a :: b :: t) =
      if b < (acceptRanges (x / 16)).1 ∨ (acceptRanges (x / 16)).2 < b then (RuneError, 1)
      else ((a % 32) * 64 + b % 64, 2) := by
  simp only [DecodeRuneInString, hx, hx8]
  have : ¬ (x ≥ 0xF0) := by omega
  simp [this]

theorem DecodeRuneInString_three (a b c : Nat) (t : GoString) (x : Nat) (hx : first a = x)
    (hx8 : x % 8 = 3) (hxlt : x < 0xF0) :
    DecodeRuneInString (a :: b :: c :: t) =
      if b < (acceptRanges (x / 16)).1 ∨ (acceptRanges (x / 16)).2 < b then (RuneError, 1)
      else if c < 0x80 ∨ 0xBF < c then (RuneError, 1)
      else ((a % 16) * 4096 + (b % 64) * 64 + c % 64, 3) := by
  simp only [DecodeRuneInString, hx, hx8]
  have : ¬ (x ≥ 0xF0) := by omega
  simp [this]

theorem DecodeRuneInString_four (a b c d : Nat) (t : GoString) (x : Nat) (hx : first a = x)
    (hx8 : x % 8 = 4) (hxlt : x < 0xF0) :
    DecodeRuneInString (a :: b :: c :: d :: t) =
      if b < (acceptRanges (x / 16)).1 ∨ (acceptRanges (x / 16)).2 < b then (RuneError, 1)
      else if c < 0x80 ∨ 0xBF < c then (RuneError, 1)
      else if d < 0x80 ∨ 0xBF < d then (RuneError, 1)
      else ((a % 8) * 262144 + (b % 64) * 4096 + (c % 64) * 64 + d % 64, 4) := by
  simp only [DecodeRuneInString, hx, hx8]
  have : ¬ (x ≥ 0xF0) := by omega
  simp [this]

theorem DecodeRuneInString_short (a : Nat) (t : GoString) (x : Nat) (hx : first a = x)
    (hxlt : x < 0xF0) (hlen : (a :: t).length < x % 8) :
    DecodeRuneInString (a :: t) = (RuneError, 1) := by
  simp only [DecodeRuneInString, hx]
  have : ¬ (x ≥ 0xF0) := by omega
  simp only [this, if_false, hlen, if_true]

theorem DecodeRuneInString_shape_aux (a x : Nat) (hx : first a = x) (hxlt : x < 0xF0)
    (ha : 0xC2 ≤ a) (hlo : 0x80 ≤ (acceptRanges (x / 16)).1) (hhi : (acceptRanges (x / 16)).2 ≤ 0xBF)
    (hsz : x % 8 = 2 ∨ x % 8 = 3 ∨ x % 8 = 4) (t : GoString) :
    DecodeShape (a :: t) (DecodeRuneInString (a :: t)).1 (DecodeRuneInString (a :: t)).2 := by
  have hinv : ∀ u, DecodeRuneInString (a :: u) = (RuneError, 1) →
      DecodeShape (a :: u) (DecodeRuneInString (a :: u)).1 (DecodeRuneInString (a :: u)).2 := by
    intro u e
    rw [e]; exact DecodeShape.invalid a u (by omega)
  rcases hsz with h2 | h3 | h4
  · rcases t with _ | ⟨b, t⟩
    · exact hinv _ (DecodeRuneInString_short a [] x hx hxlt (by simp [h2]))
    · have e := fun w => DecodeRuneInString_two a b w x hx h2 hxlt
      by_cases hb : b < (acceptRanges (x / 16)).1 ∨ (acceptRanges (x / 16)).2 < b
      · exact hinv _ (by rw [e, if_pos hb])
      · simp only [hb, if_false] at e
        rw [e]
        exact DecodeShape.two a b _ t ha (by omega) (by omega) e
  · rcases t with _ | ⟨b, _ | ⟨c, t⟩⟩
    · exact hinv _ (DecodeRuneInString_short a [] x hx hxlt (by simp [h3]))
    · exact hinv _ (DecodeRuneInString_short a [b] x hx hxlt (by simp [h3]))
    · have e := fun w => DecodeRuneInString_three a b c w x hx h3 hxlt
      by_cases hb : b < (acceptRanges (x / 16)).1 ∨ (acceptRanges (x / 16)).2 < b
      · exact hinv _ (by rw [e, if_pos hb])
      · by_cases hc : c < 0x80 ∨ 0xBF < c
        · exact hinv _ (by rw [e, if_neg hb, if_pos hc])
        · simp only [hb, hc, if_false] at e
          rw [e]
          exact DecodeShape.three a b c _ t ha (by omega) (by omega) (by omega) (by omega) e
  · rcases t with _ | ⟨b, _ | ⟨c, _ | ⟨d, t⟩⟩⟩
    · exact hinv _ (DecodeRuneInString_short a [] x hx hxlt (by simp [h4]))
    · exact hinv _ (DecodeRuneInString_short a [b] x hx hxlt (by simp [h4]))
    · exact hinv _ (DecodeRuneInString_short a [b, c] x hx hxlt (by simp [h4]))
    · have e := fun w => DecodeRuneInString_four a b c d w x hx h4 hxlt
      by_cases hb : b < (acceptRanges (x / 16)).1 ∨ (acceptRanges (x / 16)).2 < b
      · exact hinv _ (by rw [e, if_pos hb])
      · by_cases hc : c < 0x80 ∨ 0xBF < c
        · exact hinv _ (by rw [e, if_neg hb, if_pos hc])
        · by_cases hd : d < 0x80 ∨ 0xBF < d
          · exact hinv _ (by rw [e, if_neg hb, if_neg hc, if_pos hd])
          · simp only [hb, hc, hd, if_false] at e
            rw [e]
            exact DecodeShape.four a b c d _ t ha (by omega) (by omega) (by omega) (by omega)
              (by omega) (by omega) e

theorem DecodeRuneInString_shape (s : GoString) :
    DecodeShape s (DecodeRuneInString s).1 (DecodeRuneInString s).2 := by
  rcases s with _ | ⟨a, t⟩
  · exact DecodeShape.empty
  rcases first_cases a with h | h | h | h | h | h | h | h | h
  · have e : DecodeRuneInString (a :: t) = (a, 1) := by simp [DecodeRuneInString, h.2]
    rw [e]; exact DecodeShape.ascii a t h.1
  · have e : DecodeRuneInString (a :: t) = (RuneError, 1) := by simp [DecodeRuneInString, h.2]
    rw [e]; exact DecodeShape.invalid a t (by omega)
  · exact DecodeRuneInString_shape_aux a _ h.2.2 (by norm_num) (by omega)
      (by simp [acceptRanges]) (by simp [acceptRanges]) (by norm_num) t
  · exact DecodeRuneInString_shape_aux a _ h.2 (by norm_num) (by omega)
      (by simp [acceptRanges]) (by simp [acceptRanges]) (by norm_num) t
  · exact DecodeRuneInString_shape_aux a _ h.2 (by norm_num) (by omega)
      (by simp [acceptRanges]) (by simp [acceptRanges]) (by norm_num) t
  · exact DecodeRuneInString_shape_aux a _ h.2 (by norm_num) (by omega)
      (by simp [acceptRanges]) (by simp [acceptRanges]) (by norm_num) t
  · exact DecodeRuneInString_shape_aux a _ h.2 (by norm_num) (by omega)
      (by simp [acceptRanges]) (by simp [acceptRanges]) (by norm_num) t
  · exact DecodeRuneInString_shape_aux a _ h.2.2 (by norm_num) (by omega)
      (by simp [acceptRanges]) (by simp [acceptRanges]) (by norm_num) t
  · exact DecodeRuneInString_shape_aux a _ h.2 (by norm_num) (by omega)
      (by simp [acceptRanges]) (by simp [acceptRanges]) (by norm_num) t

theorem DecodeShape_size_le {s : GoString} {r n : Nat} (h : DecodeShape s r n) : n ≤ s.length := by
  cases h <;> simp

theorem DecodeShape_size_pos {s : GoString} {r n : Nat} (h : DecodeShape s r n) (hs : s ≠ []) :
    1 ≤ n := by
  cases h <;> simp at hs ⊢

theorem DecodeRuneInString_size_le (s : GoString) : (DecodeRuneInString s).2 ≤ s.length :=
  DecodeShape_size_le (DecodeRuneInString_shape s)

theorem DecodeRuneInString_size_pos (s : GoString) (hs : s ≠ []) : 1 ≤ (DecodeRuneInString s).2 :=
  DecodeShape_size_pos (DecodeRuneInString_shape s) hs

theorem findStart_toNat_le (s : GoString) (lim n : Nat) :
    (findStart s lim n).toNat ≤ lim + n - 1 := by
  induction n with
  | zero => simp [findStart]
  | succ n ih =>
    simp only [findStart]
    split_ifs
    · simp only [Int.toNat_ofNat]; omega
    · omega

/-- What `DecodeLastRuneInString` returns on a non-empty string: the last byte
when it is ASCII, `(RuneError, 1)`, or the forward decoding of the last `size`
bytes. -/
theorem DecodeLastRuneInString_spec (s : GoString) (h : s ≠ []) :
    ((DecodeLastRuneInString s).2 = 1 ∧ (DecodeLastRuneInString s).1 = s.getD (s.length - 1) 0
        ∧ s.getD (s.length - 1) 0 < 0x80)
    ∨ (DecodeLastRuneInString s = (RuneError, 1) ∧ 0x80 ≤ s.getD (s.length - 1) 0)
    ∨ (1 ≤ (DecodeLastRuneInString s).2 ∧ (DecodeLastRuneInString s).2 ≤ s.length
        ∧ 0x80 ≤ s.getD (s.length - 1) 0
        ∧ DecodeRuneInString (s.drop (s.length - (DecodeLastRuneInString s).2))
            = DecodeLastRuneInString s) := by
  have hlen : 0 < s.length := List.length_pos.mpr h
  unfold DecodeLastRuneInString
  simp only [Nat.ne_of_gt hlen, if_false]
  by_cases hr : s.getD (s.length - 1) 0 < RuneSelf
  · left
    simp only [hr, if_true]
    exact ⟨trivial, trivial, hr⟩
  · right
    simp only [hr, if_false]
    have hge : 0x80 ≤ s.getD (s.length - 1) 0 := by simp only [RuneSelf] at hr; omega
    generalize hst : (findStart s (s.length - UTFMax) (s.length - 1 - (s.length - UTFMax))).toNat = start
    have hstart : start < s.length := by
      have := findStart_toNat_le s (s.length - UTFMax) (s.length - 1 - (s.length - UTFMax))
      rw [hst] at this
      simp only [UTFMax] at this
      omega
    by_cases hsz : start + (DecodeRuneInString (s.drop start)).2 = s.length
    · right
      simp only [hsz, ne_eq, not_true_eq_false, if_false]
      have hne : s.drop start ≠ [] := by
        intro e
        have := congrArg List.length e
        simp at this; omega
      have hpos := DecodeRuneInString_size_pos _ hne
      refine ⟨hpos, by omega, hge, ?_⟩
      have : s.length - (DecodeRuneInString (s.drop start)).2 = start := by omega
      rw [this]
    · left
      simp only [ne_eq, hsz, not_false_eq_true, if_true]
      exact ⟨trivial, hge⟩
theorem RuneStart_of_lt (b : Nat) (h : b < 0x80) : RuneStart b = true := by
  simp only [RuneStart, Bool.not_eq_true', Bool.and_eq_false_imp, decide_eq_true_eq,
    decide_eq_false_iff_not]
  omega

theorem RuneStart_of_ge (b : Nat) (h : 0xC0 ≤ b) : RuneStart b = true := by
  simp only [RuneStart, Bool.not_eq_true', Bool.and_eq_false_imp, decide_eq_true_eq,
    decide_eq_false_iff_not]
  omega

/-- A decoding of width two or more is determined by the bytes it reads. -/
theorem DecodeRuneInString_ext (p q : GoString) (h2 : 2 ≤ (DecodeRuneInString p).2)
    (hq : q.take (DecodeRuneInString p).2 = p.take (DecodeRuneInString p).2) :
    DecodeRuneInString q = DecodeRuneInString p := by
  have hs := DecodeRuneInString_shape p
  generalize hr : (DecodeRuneInString p).1 = r at hs
  generalize hn : (DecodeRuneInString p).2 = n at hs h2 hq
  have hp : DecodeRuneInString p = (r, n) := by rw [← hr, ← hn]
  rw [hp]
  cases hs with
  | empty => omega
  | ascii a t _ => omega
  | invalid a t _ => omega
  | two a b r t _ _ _ e =>
    rcases q with _ | ⟨a', _ | ⟨b', w⟩⟩ <;> simp at hq
    obtain ⟨rfl, rfl⟩ := hq
    exact e w
  | three a b c r t _ _ _ _ _ e =>
    rcases q with _ | ⟨a', _ | ⟨b', _ | ⟨c', w⟩⟩⟩ <;> simp at hq
    obtain ⟨rfl, rfl, rfl⟩ := hq
    exact e w
  | four a b c d r t _ _ _ _ _ _ _ e =>
    rcases q with _ | ⟨a', _ | ⟨b', _ | ⟨c', _ | ⟨d', w⟩⟩⟩⟩ <;> simp at hq
    obtain ⟨rfl, rfl, rfl, rfl⟩ := hq
    exact e w

/-- A decoding of width two or more reads only bytes from `0x80` up. -/
theorem DecodeRuneInString_bytes_ge (p : GoString) (h2 : 2 ≤ (DecodeRuneInString p).2)
    (j : Nat) (hj : j < (DecodeRuneInString p).2) : 0x80 ≤ p.getD j 0 := by
  have hs := DecodeRuneInString_shape p
  generalize (DecodeRuneInString p).1 = r at hs
  generalize (DecodeRuneInString p).2 = n at hs h2 hj
  cases hs with
  | empty => omega
  | ascii a t _ => omega
  | invalid a t _ => omega
  | two a b r t _ _ _ e =>
    rcases j with _ | _ | j <;> simp <;> omega
  | three a b c r t _ _ _ _ _ e =>
    rcases j with _ | _ | _ | j <;> simp <;> omega
  | four a b c d r t _ _ _ _ _ _ _ e =>
    rcases j with _ | _ | _ | _ | j <;> simp <;> omega

/-- A string whose first rune is white space starts with a rune-start byte. -/
theorem DecodeRuneInString_space_head (p : GoString)
    (h : unicode.IsSpace (DecodeRuneInString p).1 = true) :
    ∃ a t, p = a :: t ∧ RuneStart a = true := by
  have hs := DecodeRuneInString_shape p
  generalize (DecodeRuneInString p).1 = r at hs h
  generalize (DecodeRuneInString p).2 = n at hs
  cases hs with
  | empty => exact absurd h (by decide)
  | ascii a t ha => exact ⟨_, t, rfl, RuneStart_of_lt _ ha⟩
  | invalid a t _ => exact absurd h (by decide)
  | two a b r t ha _ _ e => exact ⟨a, _, rfl, RuneStart_of_ge _ (by omega)⟩
  | three a b c r t ha _ _ _ _ e => exact ⟨a, _, rfl, RuneStart_of_ge _ (by omega)⟩
  | four a b c d r t ha _ _ _ _ _ _ e => exact ⟨a, _, rfl, RuneStart_of_ge _ (by omega)⟩

/-- A byte followed by a rune-start byte, or by nothing, decodes with width one. -/
theorem DecodeRuneInString_lone (a : Nat) (t : GoString)
    (ht : ∀ b, t.head? = some b → RuneStart b = true) :
    (DecodeRuneInString (a :: t)).2 = 1 := by
  have hs := DecodeRuneInString_shape (a :: t)
  generalize (DecodeRuneInString (a :: t)).1 = r at hs
  generalize (DecodeRuneInString (a :: t)).2 = n at hs
  cases hs with
  | ascii a t _ => rfl
  | invalid a t _ => rfl
  | two a b r t ha hb1 hb2 e =>
    have := ht b rfl; simp [RuneStart] at this; omega
  | three a b c r t ha hb1 hb2 _ _ e =>
    have := ht b rfl; simp [RuneStart] at this; omega
  | four a b c d r t ha hb1 hb2 _ _ _ _ e =>
    have := ht b rfl; simp [RuneStart] at this; omega

/-- A decoding of width two or more starts with a byte from `0xC2` up. -/
theorem DecodeRuneInString_head_ge (p : GoString) (h2 : 2 ≤ (DecodeRuneInString p).2) :
    0xC2 ≤ p.getD 0 0 := by
  have hs := DecodeRuneInString_shape p
  generalize (DecodeRuneInString p).1 = r at hs
  generalize (DecodeRuneInString p).2 = n at hs h2
  cases hs with
  | empty => omega
  | ascii a t _ => omega
  | invalid a t _ => omega
  | two a b r t ha _ _ e => exact ha
  | three a b c r t ha _ _ _ _ e => exact ha
  | four a b c d r t ha _ _ _ _ _ _ e => exact ha

theorem getD_take_lt (s : GoString) (i k : Nat) (h : k < i) :
    (s.take i).getD k 0 = s.getD k 0 := by
  simp [List.getElem?_take_of_lt h]

theorem getD_drop_add (s : GoString) (i j : Nat) :
    (s.drop i).getD j 0 = s.getD (i + j) 0 := by
  simp [List.getElem?_drop]

theorem drop_pred_cons (s : GoString) (ip : Nat) (h0 : 0 < ip) (hle : ip ≤ s.length) :
    s.drop (ip - 1) = s.getD (ip - 1) 0 :: s.drop ip := by
  have hlt : ip - 1 < s.length := by omega
  rw [List.drop_eq_getElem_cons hlt]
  have : ip - 1 + 1 = ip := by omega
  simp [this, List.getElem?_eq_getElem hlt]

theorem StartOK_length (s : GoString) : StartOK s s.length := by
  intro b hb
  simp at hb

theorem IsSpace_ascii (c : Nat) (h : c < 0x80) : unicode.IsSpace c = strings.asciiSpace c := by
  have : c ≤ 0xFF := by omega
  simp only [unicode.IsSpace, strings.asciiSpace, this, if_true]
  have h1 : decide (c = 0x85) = false := by simp; omega
  have h2 : decide (c = 0xA0) = false := by simp; omega
  rw [h1, h2]; simp

/-- One step of the backward scan of `lastIndexFunc` from offset `ip`. -/
theorem lastRune_step (s : GoString) (ip : Nat) (h0 : 0 < ip) (hle : ip ≤ s.length)
    (hok : StartOK s ip) :
    1 ≤ (DecodeLastRuneInString (s.take ip)).2 ∧ (DecodeLastRuneInString (s.take ip)).2 ≤ ip
    ∧ (if 0x80 ≤ s.getD (ip - (DecodeLastRuneInString (s.take ip)).2) 0
        then ip - (DecodeLastRuneInString (s.take ip)).2
          + (DecodeRuneInString (s.drop (ip - (DecodeLastRuneInString (s.take ip)).2))).2 = ip
        else ip - (DecodeLastRuneInString (s.take ip)).2 + 1 = ip)
    ∧ (unicode.IsSpace (DecodeLastRuneInString (s.take ip)).1 = true →
        StartOK s (ip - (DecodeLastRuneInString (s.take ip)).2))
    ∧ (∀ k, k < ip → s.getD k 0 < 0x80 →
        k < ip - (DecodeLastRuneInString (s.take ip)).2
        ∨ (k + 1 = ip ∧ (DecodeLastRuneInString (s.take ip)).1 = s.getD k 0)) := by
  have hlen : (s.take ip).length = ip := by simp; omega
  have hne : s.take ip ≠ [] := by
    intro e; rw [e] at hlen; simp at hlen; omega
  have hlast : (s.take ip).getD (ip - 1) 0 = s.getD (ip - 1) 0 := getD_take_lt s ip (ip - 1) (by omega)
  have hdrop := drop_pred_cons s ip h0 hle
  have hlone : (DecodeRuneInString (s.drop (ip - 1))).2 = 1 := by
    rw [hdrop]; exact DecodeRuneInString_lone _ _ hok
  have hheadS : ∀ i, i < ip → (s.drop i).head? = some (s.getD i 0) := by
    intro i hi
    have : i < s.length := by omega
    simp [List.head?_drop, List.getElem?_eq_getElem this]
  have spec := DecodeLastRuneInString_spec (s.take ip) hne
  rw [hlen, hlast] at spec
  generalize DecodeLastRuneInString (s.take ip) = rs at spec ⊢
  rcases spec with ⟨h1, h2, h3⟩ | ⟨h1, h2⟩ | ⟨h1, h2, h3, h4⟩
  · -- the last byte is ASCII
    refine ⟨by omega, by omega, ?_, ?_, ?_⟩
    · rw [h1, if_neg (by omega)]; omega
    · intro _ b hb
      rw [h1, hheadS (ip - 1) (by omega)] at hb
      cases hb
      exact RuneStart_of_lt _ h3
    · intro k hk _
      rw [h1, h2]
      by_cases hk1 : k + 1 = ip
      · right; refine ⟨hk1, ?_⟩
        have : ip - 1 = k := by omega
        rw [this]
      · left; omega
  · -- an invalid encoding
    subst h1
    refine ⟨by simp, by simpa using h0, ?_, ?_, ?_⟩
    · simp only []
      rw [if_pos h2, hlone]; omega
    · intro h; exact absurd h (by decide)
    · intro k hk hk80
      left
      simp only []
      have : k ≠ ip - 1 := by rintro rfl; omega
      omega
  · -- a forward decoding of the last bytes
    have hi : ip - rs.2 < ip := by omega
    have hp : (s.take ip).drop (ip - rs.2) = (s.drop (ip - rs.2)).take rs.2 := by
      rw [List.drop_take]
      congr 1; omega
    rw [hp] at h4
    have hplen : ((s.drop (ip - rs.2)).take rs.2).length = rs.2 := by simp; omega
    by_cases hn : rs.2 = 1
    · have e1 : ip - rs.2 = ip - 1 := by omega
      refine ⟨h1, h2, ?_, ?_, ?_⟩
      · rw [e1, if_pos h3, hlone]; omega
      · intro hsp b hb
        rw [← h4] at hsp
        obtain ⟨a, t, hat, ha⟩ := DecodeRuneInString_space_head _ hsp
        have hh : ((s.drop (ip - rs.2)).take rs.2).head? = some a := by rw [hat]; rfl
        rw [List.head?_take, if_neg (by omega)] at hh
        rw [hh] at hb
        cases hb
        exact ha
      · intro k hk hk80
        left
        have : k ≠ ip - 1 := by rintro rfl; omega
        omega
    · have h2' : 2 ≤ (DecodeRuneInString ((s.drop (ip - rs.2)).take rs.2)).2 := by
        rw [h4]; omega
      have hbytes := DecodeRuneInString_bytes_ge _ h2'
      rw [h4] at hbytes
      have hbyte : ∀ j, j < rs.2 → 0x80 ≤ s.getD (ip - rs.2 + j) 0 := by
        intro j hj
        have := hbytes j hj
        rw [getD_take_lt _ _ _ hj, getD_drop_add] at this
        exact this
      refine ⟨h1, h2, ?_, ?_, ?_⟩
      · rw [if_pos (by simpa using hbyte 0 (by omega))]
        have := DecodeRuneInString_ext _ (s.drop (ip - rs.2)) h2' (by
          rw [h4, List.take_take]; simp)
        rw [this, h4]; omega
      · intro _ b hb
        rw [hheadS _ hi] at hb
        cases hb
        have := DecodeRuneInString_head_ge _ h2'
        rw [getD_take_lt _ _ _ (by omega), getD_drop_add] at this
        exact RuneStart_of_ge _ (by simpa using (show 0xC0 ≤ s.getD (ip - rs.2 + 0) 0 by omega))
      · intro k hk hk80
        left
        by_contra hcon
        have := hbyte (k - (ip - rs.2)) (by omega)
        have e : ip - rs.2 + (k - (ip - rs.2)) = k := by omega
        rw [e] at this
        omega

/-- The backward scan of `lastIndexFunc` for white space: it stops at the last
rune that is not white space, and never passes an ASCII byte that is not a
space. -/
theorem lastIndexFuncLoop_spec (s : GoString) :
    ∀ fuel i, i ≤ fuel → i ≤ s.length → StartOK s i →
      (strings.lastIndexFuncLoop s unicode.IsSpace false fuel i = -1
        ∧ ∀ k, k < i → s.getD k 0 < 0x80 → strings.asciiSpace (s.getD k 0) = true)
      ∨ ∃ ip, 0 < ip ∧ ip ≤ i ∧ StartOK s ip
          ∧ unicode.IsSpace (DecodeLastRuneInString (s.take ip)).1 = false
          ∧ strings.lastIndexFuncLoop s unicode.IsSpace false fuel i
              = ((ip - (DecodeLastRuneInString (s.take ip)).2 : Nat) : Int)
          ∧ ∀ k, k < i → s.getD k 0 < 0x80 → strings.asciiSpace (s.getD k 0) = false →
              k < ip := by
  intro fuel
  induction fuel with
  | zero =>
    intro i hi _ _
    left
    refine ⟨rfl, ?_⟩
    intro k hk; omega
  | succ fuel ih =>
    intro i hi hle hok
    by_cases h0 : i > 0
    · obtain ⟨s1, s2, _, s4, s5⟩ := lastRune_step s i h0 hle hok
      simp only [strings.lastIndexFuncLoop, h0, if_true]
      by_cases hsp : unicode.IsSpace (DecodeLastRuneInString (s.take i)).1 = false
      · right
        refine ⟨i, h0, le_refl _, hok, hsp, ?_, ?_⟩
        · simp [hsp]
        · intro k hk _ _; exact hk
      · have hsp' : unicode.IsSpace (DecodeLastRuneInString (s.take i)).1 = true := by
          simpa using hsp
        simp only [hsp', Bool.true_eq_false, beq_iff_eq, if_false]
        rcases ih (i - (DecodeLastRuneInString (s.take i)).2) (by omega) (by omega) (s4 hsp')
          with ⟨e, hk⟩ | ⟨ip, p1, p2, p3, p4, p5, p6⟩
        · left
          refine ⟨e, ?_⟩
          intro k hki hk80
          rcases s5 k hki hk80 with h | ⟨_, h⟩
          · exact hk k h hk80
          · rw [← IsSpace_ascii _ hk80, ← h]; exact hsp'
        · right
          refine ⟨ip, p1, by omega, p3, p4, p5, ?_⟩
          intro k hki hk80 hns
          rcases s5 k hki hk80 with h | ⟨_, h⟩
          · exact p6 k h hk80 hns
          · rw [← IsSpace_ascii _ hk80, ← h, hsp'] at hns
            exact absurd hns (by decide)
    · left
      have : i = 0 := by omega
      subst this
      refine ⟨by simp [strings.lastIndexFuncLoop], ?_⟩
      intro k hk; omega

/-- `TrimRightFunc s IsSpace` is a prefix of `s` that is empty or ends with a
rune that is not white space, and it keeps every ASCII byte that is not a
space. -/
theorem TrimRightFunc_spec (s : GoString) :
    ∃ ip, ip ≤ s.length ∧ strings.TrimRightFunc s unicode.IsSpace = s.take ip
      ∧ (ip = 0 ∨ unicode.IsSpace (DecodeLastRuneInString (s.take ip)).1 = false)
      ∧ ∀ k, k < s.length → s.getD k 0 < 0x80 → strings.asciiSpace (s.getD k 0) = false →
          k < ip := by
  rcases lastIndexFuncLoop_spec s s.length s.length (le_refl _) (le_refl _) (StartOK_length s)
    with ⟨e, hk⟩ | ⟨ip, p1, p2, p3, p4, p5, p6⟩
  · refine ⟨0, Nat.zero_le _, ?_, Or.inl rfl, ?_⟩
    · simp [strings.TrimRightFunc, strings.lastIndexFunc, e]
    · intro k hkl hk80 hns
      rw [hk k hkl hk80] at hns
      exact absurd hns (by decide)
  · refine ⟨ip, p2, ?_, Or.inr p4, p6⟩
    obtain ⟨_, _, s3, _, _⟩ := lastRune_step s ip p1 p2 p3
    simp only [strings.TrimRightFunc, strings.lastIndexFunc, p5, Int.toNat_ofNat, RuneSelf]
    by_cases hge : 0x80 ≤ s.getD (ip - (DecodeLastRuneInString (s.take ip)).2) 0
    · rw [if_pos hge] at s3
      rw [if_pos ⟨Int.ofNat_nonneg _, hge⟩, s3]
    · rw [if_neg hge] at s3
      rw [if_neg (fun h => hge h.2)]
      have : ((((ip - (DecodeLastRuneInString (s.take ip)).2 : Nat) : Int) + 1).toNat) = ip := by
        omega
      rw [this]

/-- `TrimRightFunc · IsSpace` leaves a string that ends with a rune that is not
white space as it is. -/
theorem TrimRightFunc_fix (t : GoString) (hne : t ≠ [])
    (hns : unicode.IsSpace (DecodeLastRuneInString t).1 = false) :
    strings.TrimRightFunc t unicode.IsSpace = t := by
  have hlen : 0 < t.length := List.length_pos.mpr hne
  obtain ⟨_, _, s3, _, _⟩ := lastRune_step t t.length hlen (le_refl _) (StartOK_length t)
  rw [List.take_length] at s3
  have e : strings.lastIndexFunc t unicode.IsSpace false
      = ((t.length - (DecodeLastRuneInString t).2 : Nat) : Int) := by
    unfold strings.lastIndexFunc
    obtain ⟨n, hn⟩ : ∃ n, t.length = n + 1 := ⟨t.length - 1, by omega⟩
    rw [hn]
    simp only [strings.lastIndexFuncLoop]
    rw [← hn, List.take_length]
    simp [hns, hlen]
  simp only [strings.TrimRightFunc, e, Int.toNat_ofNat, RuneSelf]
  by_cases hge : 0x80 ≤ t.getD (t.length - (DecodeLastRuneInString t).2) 0
  · rw [if_pos hge] at s3
    rw [if_pos ⟨Int.ofNat_nonneg _, hge⟩, s3, List.take_length]
  · rw [if_neg hge] at s3
    rw [if_neg (fun h => hge h.2)]
    have : ((((t.length - (DecodeLastRuneInString t).2 : Nat) : Int) + 1).toNat) = t.length := by
      omega
    rw [this, List.take_length]

theorem DecodeLastRuneInString_ascii (s : GoString) (hne : s ≠ [])
    (h : s.getD (s.length - 1) 0 < 0x80) :
    DecodeLastRuneInString s = (s.getD (s.length - 1) 0, 1) := by
  have hlen : 0 < s.length := List.length_pos.mpr hne
  unfold DecodeLastRuneInString
  simp only [Nat.ne_of_gt hlen, if_false, RuneSelf, h, if_true]

/-- The loop of `indexFunc` gives the same result for every bound from the
length of the string up: the bound `len(s)` is never exhausted. -/
theorem indexFuncLoop_fuel (f : Nat → Bool) (truth : Bool) :
    ∀ fuel1 fuel2 i (s : GoString), s.length ≤ fuel1 → s.length ≤ fuel2 →
      strings.indexFuncLoop f truth fuel1 i s = strings.indexFuncLoop f truth fuel2 i s := by
  intro fuel1
  induction fuel1 with
  | zero =>
    intro fuel2 i s h1 _
    have hs : s = [] := List.length_eq_zero.mp (by omega)
    subst hs
    cases fuel2 <;> simp [strings.indexFuncLoop]
  | succ fuel1 ih =>
    intro fuel2 i s h1 h2
    cases s with
    | nil => cases fuel2 <;> simp [strings.indexFuncLoop]
    | cons c cs =>
      obtain ⟨k, rfl⟩ : ∃ k, fuel2 = k + 1 := ⟨fuel2 - 1, by simp at h2; omega⟩
      simp only [strings.indexFuncLoop]
      split_ifs
      · rfl
      · have hpos := DecodeRuneInString_size_pos (c :: cs) (by simp)
        simp only [List.length_cons] at h1 h2
        exact ih k _ _ (by simp only [List.length_drop, List.length_cons]; omega)
          (by simp only [List.length_drop, List.length_cons]; omega)

/-- The second loop of `TrimSpace`: the result is a prefix that is empty or ends
with a rune that is not white space, and keeps every ASCII byte that is not a
space. -/
theorem trimSpaceStop_spec (u : GoString) :
    ∀ n, n ≤ u.length →
      ∃ ip, ip ≤ n ∧ strings.trimSpaceStop u n = u.take ip
        ∧ (ip = 0 ∨ unicode.IsSpace (DecodeLastRuneInString (u.take ip)).1 = false)
        ∧ ∀ k, k < n → u.getD k 0 < 0x80 → strings.asciiSpace (u.getD k 0) = false → k < ip := by
  intro n
  induction n with
  | zero =>
    intro _
    exact ⟨0, le_refl _, rfl, Or.inl rfl, fun k hk => by omega⟩
  | succ n ih =>
    intro hn
    simp only [strings.trimSpaceStop]
    by_cases hc : u.getD n 0 ≥ RuneSelf
    · rw [if_pos hc]
      obtain ⟨ip, p1, p2, p3, p4⟩ := TrimRightFunc_spec (u.take (n + 1))
      have hl : (u.take (n + 1)).length = n + 1 := by simp; omega
      rw [hl] at p1 p4
      have ht : (u.take (n + 1)).take ip = u.take ip := by
        rw [List.take_take]; congr 1; omega
      rw [ht] at p2 p3
      refine ⟨ip, p1, p2, p3, ?_⟩
      intro k hk hk80 hns
      rw [← getD_take_lt u (n + 1) k hk] at hk80 hns
      exact p4 k hk hk80 hns
    · rw [if_neg hc]
      have hc80 : u.getD n 0 < 0x80 := by simp only [RuneSelf] at hc; omega
      by_cases hsp : strings.asciiSpace (u.getD n 0) = true
      · rw [if_pos hsp]
        obtain ⟨ip, p1, p2, p3, p4⟩ := ih (by omega)
        refine ⟨ip, by omega, p2, p3, ?_⟩
        intro k hk hk80 hns
        by_cases hkn : k = n
        · subst hkn; rw [hsp] at hns; exact absurd hns (by decide)
        · exact p4 k (by omega) hk80 hns
      · rw [if_neg hsp]
        refine ⟨n + 1, le_refl _, rfl, Or.inr ?_, fun k hk _ _ => hk⟩
        have hl : (u.take (n + 1)).length = n + 1 := by simp; omega
        have hne : u.take (n + 1) ≠ [] := by
          intro e; rw [e] at hl; simp at hl
        have hlast : (u.take (n + 1)).getD ((u.take (n + 1)).length - 1) 0 = u.getD n 0 := by
          rw [hl]; exact getD_take_lt u (n + 1) n (by omega)
        rw [DecodeLastRuneInString_ascii _ hne (by rw [hlast]; exact hc80), hlast,
          IsSpace_ascii _ hc80]
        simpa using hsp

/-- The second loop of `TrimSpace` leaves a string that ends with a rune that
is not white space as it is. -/
theorem trimSpaceStop_fix (t : GoString) (hne : t ≠ [])
    (hns : unicode.IsSpace (DecodeLastRuneInString t).1 = false) :
    strings.trimSpaceStop t t.length = t := by
  have hlen : 0 < t.length := List.length_pos.mpr hne
  obtain ⟨n, hn⟩ : ∃ n, t.length = n + 1 := ⟨t.length - 1, by omega⟩
  have hn' : n = t.length - 1 := by omega
  rw [hn]
  simp only [strings.trimSpaceStop]
  rw [← hn, List.take_length]
  by_cases hc : t.getD n 0 ≥ RuneSelf
  · rw [if_pos hc]; exact TrimRightFunc_fix t hne hns
  · rw [if_neg hc]
    have hc80 : t.getD n 0 < 0x80 := by simp only [RuneSelf] at hc; omega
    rw [DecodeLastRuneInString_ascii t hne (by rw [← hn']; exact hc80), ← hn',
      IsSpace_ascii _ hc80] at hns
    rw [if_neg (by rw [hns]; decide)]

/-- `TrimSpace s` is a piece of `s` that is empty or ends with a rune that is
not white space. -/
theorem TrimSpace_spec (s : GoString) :
    (∃ a b, strings.TrimSpace s = (s.drop a).take b)
    ∧ (strings.TrimSpace s = []
        ∨ unicode.IsSpace (DecodeLastRuneInString (strings.TrimSpace s)).1 = false) := by
  induction s with
  | nil => exact ⟨⟨0, 0, rfl⟩, Or.inl rfl⟩
  | cons c cs ih =>
    simp only [strings.TrimSpace]
    by_cases hc : c ≥ RuneSelf
    · rw [if_pos hc]
      obtain ⟨ip, _, p2, p3, _⟩ :=
        TrimRightFunc_spec (strings.TrimLeftFunc (c :: cs) unicode.IsSpace)
      simp only [strings.TrimFunc]
      rw [p2]
      constructor
      · unfold strings.TrimLeftFunc
        simp only []
        split_ifs
        · exact ⟨(c :: cs).length, ip, by simp⟩
        · exact ⟨_, ip, rfl⟩
      · rcases p3 with rfl | h
        · left; simp
        · right; exact h
    · rw [if_neg hc]
      by_cases hsp : strings.asciiSpace c = true
      · rw [if_pos hsp]
        obtain ⟨⟨a, b, e⟩, h2⟩ := ih
        exact ⟨⟨a + 1, b, by rw [e]; rfl⟩, h2⟩
      · rw [if_neg hsp]
        obtain ⟨ip, _, p2, p3, _⟩ := trimSpaceStop_spec (c :: cs) (cs.length + 1) (le_refl _)
        rw [p2]
        refine ⟨⟨0, ip, rfl⟩, ?_⟩
        rcases p3 with rfl | h
        · left; simp
        · right; exact h

/-- Every byte of `TrimSpace s` is a byte of `s`. -/
theorem TrimSpace_mem (s : GoString) (x : Nat) (hx : x ∈ strings.TrimSpace s) : x ∈ s := by
  obtain ⟨⟨a, b, e⟩, _⟩ := TrimSpace_spec s
  rw [e] at hx
  exact List.mem_of_mem_drop (List.mem_of_mem_take hx)

/-- `TrimSpace` is the identity on a string that starts with an ASCII byte that
is not a space and ends with a rune that is not white space. -/
theorem TrimSpace_fix (c : Nat) (cs : GoString) (hc : c < 0x80)
    (hsp : strings.asciiSpace c = false)
    (hns : unicode.IsSpace (DecodeLastRuneInString (c :: cs)).1 = false) :
    strings.TrimSpace (c :: cs) = c :: cs := by
  simp only [strings.TrimSpace, RuneSelf]
  rw [if_neg (by omega), if_neg (by simp [hsp])]
  exact trimSpaceStop_fix (c :: cs) (by simp) hns

/-- `TrimSpace` is idempotent on its results that start with an ASCII byte that
is not a space. -/
theorem TrimSpace_idem (s : GoString) (c : Nat) (cs : GoString) (e : strings.TrimSpace s = c :: cs)
    (hc : c < 0x80) (hsp : strings.asciiSpace c = false) :
    strings.TrimSpace (strings.TrimSpace s) = strings.TrimSpace s := by
  obtain ⟨_, h⟩ := TrimSpace_spec s
  rw [e] at h ⊢
  rcases h with h | h
  · exact absurd h (by simp)
  · exact TrimSpace_fix c cs hc hsp h

/-- On a string that starts with an ASCII byte that is not a space, `TrimSpace`
returns a prefix that keeps every ASCII byte that is not a space. -/
theorem TrimSpace_keep (c : Nat) (cs : GoString) (hc : c < 0x80)
    (hsp : strings.asciiSpace c = false) :
    ∃ ip, ip ≤ (c :: cs).length ∧ strings.TrimSpace (c :: cs) = (c :: cs).take ip
      ∧ ∀ k, k < (c :: cs).length → (c :: cs).getD k 0 < 0x80 →
          strings.asciiSpace ((c :: cs).getD k 0) = false → k < ip := by
  simp only [strings.TrimSpace, RuneSelf]
  rw [if_neg (by omega), if_neg (by simp [hsp])]
  obtain ⟨ip, p1, p2, _, p4⟩ := trimSpaceStop_spec (c :: cs) (cs.length + 1) (le_refl _)
  exact ⟨ip, p1, p2, p4⟩

theorem HasPrefix_http_iff (s : GoString) :
    strings.HasPrefix s (lit "http") = true ↔ ∃ t, s = 0x68 :: 0x74 :: 0x74 :: 0x70 :: t := by
  have e : lit "http" = [0x68, 0x74, 0x74, 0x70] := by decide
  rw [e]
  constructor
  · intro h
    rcases s with _ | ⟨a, _ | ⟨b, _ | ⟨c, _ | ⟨d, t⟩⟩⟩⟩ <;> simp [strings.HasPrefix] at h
    obtain ⟨rfl, rfl, rfl, rfl⟩ := h
    exact ⟨t, rfl⟩
  · rintro ⟨t, rfl⟩
    simp [strings.HasPrefix]

/-- A line that begins with `http` still does after `TrimSpace`. -/
theorem TrimSpace_http (l : GoString) (h : strings.HasPrefix l (lit "http") = true) :
    strings.HasPrefix (strings.TrimSpace l) (lit "http") = true := by
  obtain ⟨t, rfl⟩ := (HasPrefix_http_iff l).mp h
  obtain ⟨ip, p1, p2, p3⟩ := TrimSpace_keep 0x68 (0x74 :: 0x74 :: 0x70 :: t) (by norm_num) (by decide)
  have h4 : 3 < ip := p3 3 (by simp) (by simp) (by simp [strings.asciiSpace])
  rw [p2, HasPrefix_http_iff]
  obtain ⟨j, rfl⟩ : ∃ j, ip = j + 4 := ⟨ip - 4, by omega⟩
  exact ⟨t.take j, by simp [List.take]⟩

theorem DecodeRuneInString_ascii (s0 : Nat) (t : GoString) (h : s0 < 0x80) :
    DecodeRuneInString (s0 :: t) = (s0, 1) := by
  simp [DecodeRuneInString, first, h]

/-! ### `strings.Split` -/

theorem Split_ne_nil (s : GoString) (sep : Nat) : strings.Split s sep ≠ [] := by
  cases s with
  | nil => simp [strings.Split]
  | cons c cs =>
    simp only [strings.Split]
    split_ifs
    · simp
    · split <;> simp

theorem Split_no_sep (s : GoString) (sep : Nat) :
    ∀ l, l ∈ strings.Split s sep → sep ∉ l := by
  induction s with
  | nil => intro l hl; simp [strings.Split] at hl; subst hl; simp
  | cons c cs ih =>
    intro l hl
    simp only [strings.Split] at hl
    split_ifs at hl with hc
    · rcases List.mem_cons.mp hl with rfl | h
      · simp
      · exact ih l h
    · split at hl
      · simp at hl; subst hl; simpa using Ne.symm hc
      · rename_i l0 ls e
        rcases List.mem_cons.mp hl with rfl | h
        · have := ih l0 (by rw [e]; simp)
          simp only [List.mem_cons, not_or]
          exact ⟨Ne.symm hc, this⟩
        · exact ih l (by rw [e]; simp [h])

theorem Split_of_not_mem (s : GoString) (sep : Nat) (h : sep ∉ s) : strings.Split s sep = [s] := by
  induction s with
  | nil => rfl
  | cons c cs ih =>
    simp only [List.mem_cons, not_or] at h
    simp only [strings.Split]
    rw [if_neg (Ne.symm h.1), ih h.2]

/-! ### The scan of `GetStreamURL` -/

/-- The scan from index `n - 1` down: it fails exactly when no line below `n`
qualifies, and otherwise returns the trimmed line of greatest index that does. -/
theorem GetStreamURL_scan_spec (lines : List GoString) (n : Nat) :
    (GetStreamURL_scan lines n = ([], some (lit "no valid URL found in output"))
      ∧ ∀ j, j < n → strings.HasPrefix (strings.TrimSpace (lines.getD j [])) (lit "http") = false)
    ∨ ∃ i, i < n ∧ strings.HasPrefix (strings.TrimSpace (lines.getD i [])) (lit "http") = true
        ∧ (∀ j, i < j → j < n →
            strings.HasPrefix (strings.TrimSpace (lines.getD j [])) (lit "http") = false)
        ∧ GetStreamURL_scan lines n = (strings.TrimSpace (lines.getD i []), none) := by
  induction n with
  | zero => left; exact ⟨rfl, fun j hj => by omega⟩
  | succ n ih =>
    simp only [GetStreamURL_scan]
    by_cases h : strings.HasPrefix (strings.TrimSpace (lines.getD n [])) (lit "http") = true
    · right
      refine ⟨n, by omega, h, fun j h1 h2 => by omega, ?_⟩
      rw [if_pos h]
    · rw [if_neg h]
      have h' : strings.HasPrefix (strings.TrimSpace (lines.getD n [])) (lit "http") = false := by
        simpa using h
      rcases ih with ⟨e, hall⟩ | ⟨i, hi, hp, hlater, e⟩
      · left
        refine ⟨e, ?_⟩
        intro j hj
        by_cases hjn : j = n
        · subst hjn; exact h'
        · exact hall j (by omega)
      · right
        refine ⟨i, by omega, hp, ?_, e⟩
        intro j h1 h2
        by_cases hjn : j = n
        · subst hjn; exact h'
        · exact hlater j h1 (by omega)

theorem GetStreamURL_parse_eq (stdout : GoString) :
    GetStreamURL_parse stdout
      = GetStreamURL_scan (strings.Split stdout 0x0A) (strings.Split stdout 0x0A).length := by
  unfold GetStreamURL_parse
  have : (strings.Split stdout 0x0A).length ≠ 0 := by
    intro h; exact Split_ne_nil stdout 0x0A (List.length_eq_zero.mp h)
  simp only [this, if_false]

/-- The index of the last qualifying line determines the result of the scan. -/
theorem GetStreamURL_scan_last (lines : List GoString) (n i : Nat) (hi : i < n)
    (hp : strings.HasPrefix (strings.TrimSpace (lines.getD i [])) (lit "http") = true)
    (hlater : ∀ j, i < j → j < n →
      strings.HasPrefix (strings.TrimSpace (lines.getD j [])) (lit "http") = false) :
    GetStreamURL_scan lines n = (strings.TrimSpace (lines.getD i []), none) := by
  rcases GetStreamURL_scan_spec lines n with ⟨_, hall⟩ | ⟨k, hk, hkp, hklater, e⟩
  · rw [hall i hi] at hp; exact absurd hp (by decide)
  · have : k = i := by
      rcases Nat.lt_trichotomy k i with h | h | h
      · rw [hklater i h hi] at hp; exact absurd hp (by decide)
      · exact h
      · rw [hlater k h hk] at hkp; exact absurd hkp (by decide)
    rw [e, this]

/-- `GetStreamURL` after a successful run of the subprocess returns what the
parsing step makes of the standard output. -/
theorem GetStreamURL_of_run_ok (y : YtdlpWrapper) (run : ytdlp.Runner) (url : GoString)
    (fs : FileSystem) (h : (run y.streamCommand none url fs).err = none) :
    (y.GetStreamURL run url fs).1 = GetStreamURL_parse (run y.streamCommand none url fs).result.Stdout := by
  simp only [YtdlpWrapper.GetStreamURL, h]

/-- `GetStreamURL` after a failed run returns the empty URL and the wrapped error. -/
theorem GetStreamURL_of_run_err (y : YtdlpWrapper) (run : ytdlp.Runner) (url : GoString)
    (fs : FileSystem) (e : GoString) (h : (run y.streamCommand none url fs).err = some e) :
    (y.GetStreamURL run url fs).1 = ([], some (lit "failed to execute yt-dlp: " ++ e)) := by
  simp only [YtdlpWrapper.GetStreamURL, h, Errorf]

/-! ### The claims on the parsing step -/

/-- A successful parse returns the trimmed line of greatest index that begins
with `http` once trimmed. -/
theorem GetStreamURL_parse_success (stdout url : GoString)
    (h : GetStreamURL_parse stdout = (url, none)) :
    ∃ i, i < (strings.Split stdout 0x0A).length
      ∧ url = strings.TrimSpace ((strings.Split stdout 0x0A).getD i [])
      ∧ strings.HasPrefix (strings.TrimSpace ((strings.Split stdout 0x0A).getD i [])) (lit "http")
          = true
      ∧ ∀ j, i < j → j < (strings.Split stdout 0x0A).length →
          strings.HasPrefix (strings.TrimSpace ((strings.Split stdout 0x0A).getD j [])) (lit "http")
            = false := by
  rw [GetStreamURL_parse_eq] at h
  rcases GetStreamURL_scan_spec (strings.Split stdout 0x0A) (strings.Split stdout 0x0A).length
    with ⟨e, _⟩ | ⟨i, hi, hp, hlater, e⟩
  · rw [e] at h; simp at h
  · rw [e] at h
    exact ⟨i, hi, (congrArg Prod.fst h).symm, hp, hlater⟩

/-- C1: when the parsing step of `GetStreamURL` succeeds it returns exactly
`TrimSpace l` for the line `l` of greatest index whose trimmed form begins with
`http`: no line after it qualifies, so no earlier line is ever returned when a
later one qualifies. -/
theorem GetStreamURL_returns_last_http_line (stdout url : GoString)
    (h : GetStreamURL_parse stdout = (url, none)) :
    ∃ i, i < (strings.Split stdout 0x0A).length
      ∧ url = strings.TrimSpace ((strings.Split stdout 0x0A).getD i [])
      ∧ strings.HasPrefix (strings.TrimSpace ((strings.Split stdout 0x0A).getD i [])) (lit "http")
          = true
      ∧ ∀ j, i < j → j < (strings.Split stdout 0x0A).length →
          strings.HasPrefix (strings.TrimSpace ((strings.Split stdout 0x0A).getD j [])) (lit "http")
            = false :=
  GetStreamURL_parse_success stdout url h

theorem GetStreamURL_returns_last_http_line_witness :
    ∃ i, i < (strings.Split (lit "http://a\nWARNING: x\n  https://b \nend") 0x0A).length
      ∧ lit "https://b" = strings.TrimSpace
          ((strings.Split (lit "http://a\nWARNING: x\n  https://b \nend") 0x0A).getD i [])
      ∧ strings.HasPrefix (strings.TrimSpace
          ((strings.Split (lit "http://a\nWARNING: x\n  https://b \nend") 0x0A).getD i []))
          (lit "http") = true
      ∧ ∀ j, i < j → j < (strings.Split (lit "http://a\nWARNING: x\n  https://b \nend") 0x0A).length →
          strings.HasPrefix (strings.TrimSpace
            ((strings.Split (lit "http://a\nWARNING: x\n  https://b \nend") 0x0A).getD j []))
            (lit "http") = false :=
  GetStreamURL_returns_last_http_line (lit "http://a\nWARNING: x\n  https://b \nend")
    (lit "https://b") (by decide)

/-- C2: when exactly one line of the output begins with `http`, as it stands
or once trimmed, and no other line does even after trimming (warnings, blank
lines), the parsing step of `GetStreamURL` succeeds and returns that line
without its surrounding white space; the output
`"WARNING: foo\nhttps://cdn.example.com/stream.m3u8\n"` gives
`"https://cdn.example.com/stream.m3u8"`. -/
theorem GetStreamURL_single_http_line :
    (∀ (stdout : GoString) (i : Nat), i < (strings.Split stdout 0x0A).length →
      (strings.HasPrefix ((strings.Split stdout 0x0A).getD i []) (lit "http") = true
        ∨ strings.HasPrefix (strings.TrimSpace ((strings.Split stdout 0x0A).getD i []))
            (lit "http") = true) →
      (∀ j, j < (strings.Split stdout 0x0A).length → j ≠ i →
        strings.HasPrefix (strings.TrimSpace ((strings.Split stdout 0x0A).getD j [])) (lit "http")
          = false) →
      GetStreamURL_parse stdout
        = (strings.TrimSpace ((strings.Split stdout 0x0A).getD i []), none))
    ∧ GetStreamURL_parse (lit "WARNING: foo\nhttps://cdn.example.com/stream.m3u8\n")
        = (lit "https://cdn.example.com/stream.m3u8", none) := by
  refine ⟨?_, by decide⟩
  intro stdout i hi hp hothers
  rw [GetStreamURL_parse_eq]
  have hp' : strings.HasPrefix (strings.TrimSpace ((strings.Split stdout 0x0A).getD i []))
      (lit "http") = true := by
    rcases hp with h | h
    · exact TrimSpace_http _ h
    · exact h
  exact GetStreamURL_scan_last _ _ i hi hp' (fun j h1 h2 => hothers j h2 (by omega))

/-- C3: the parsing step of `GetStreamURL` fails, with the error "no valid URL
found in output" and an empty URL, if and only if no line of the output begins
with `http` after trimming; it fails for the empty output, for warnings only
and for blank lines only. -/
theorem GetStreamURL_fails_iff_no_http_line :
    (∀ stdout : GoString,
      (GetStreamURL_parse stdout).2 ≠ none ↔
        ∀ j, j < (strings.Split stdout 0x0A).length →
          strings.HasPrefix (strings.TrimSpace ((strings.Split stdout 0x0A).getD j [])) (lit "http")
            = false)
    ∧ (∀ stdout : GoString, (GetStreamURL_parse stdout).2 ≠ none →
        GetStreamURL_parse stdout = ([], some (lit "no valid URL found in output")))
    ∧ GetStreamURL_parse [] = ([], some (lit "no valid URL found in output"))
    ∧ GetStreamURL_parse (lit "WARNING: foo\nERROR: bar\n")
        = ([], some (lit "no valid URL found in output"))
    ∧ GetStreamURL_parse (lit "\n  \n\t\n") = ([], some (lit "no valid URL found in output")) := by
  refine ⟨?_, ?_, by decide, by decide, by decide⟩
  · intro stdout
    rw [GetStreamURL_parse_eq]
    rcases GetStreamURL_scan_spec (strings.Split stdout 0x0A) (strings.Split stdout 0x0A).length
      with ⟨e, hall⟩ | ⟨i, hi, hp, _, e⟩
    · rw [e]; simpa using hall
    · rw [e]
      constructor
      · intro h; exact absurd rfl h
      · intro hall; rw [hall i hi] at hp; exact absurd hp (by decide)
  · intro stdout
    rw [GetStreamURL_parse_eq]
    rcases GetStreamURL_scan_spec (strings.Split stdout 0x0A) (strings.Split stdout 0x0A).length
      with ⟨e, _⟩ | ⟨i, _, _, _, e⟩
    · intro _; exact e
    · rw [e]; intro h; exact absurd rfl h

/-- C10: a URL returned by the parsing step of `GetStreamURL` begins with
`http`, has no white-space rune at its start or at its end, contains no line
feed, is left unchanged by `TrimSpace`, and the parsing step applied to it
returns it again. -/
theorem GetStreamURL_result_is_clean (stdout url : GoString)
    (h : GetStreamURL_parse stdout = (url, none)) :
    strings.HasPrefix url (lit "http") = true
    ∧ unicode.IsSpace (utf8.DecodeRuneInString url).1 = false
    ∧ unicode.IsSpace (utf8.DecodeLastRuneInString url).1 = false
    ∧ 0x0A ∉ url
    ∧ strings.TrimSpace url = url
    ∧ GetStreamURL_parse url = (url, none) := by
  obtain ⟨i, hi, hu, hp, _⟩ := GetStreamURL_parse_success stdout url h
  rw [← hu] at hp
  obtain ⟨t, ht⟩ := (HasPrefix_http_iff url).mp hp
  have hline : (strings.Split stdout 0x0A).getD i [] ∈ strings.Split stdout 0x0A := by
    rw [List.getD_eq_getElem _ _ hi]; exact List.getElem_mem _
  have hnl : 0x0A ∉ url := by
    intro hmem
    rw [hu] at hmem
    exact Split_no_sep stdout 0x0A _ hline (TrimSpace_mem _ _ hmem)
  have hidem : strings.TrimSpace url = url := by
    have := TrimSpace_idem ((strings.Split stdout 0x0A).getD i []) 0x68 (0x74 :: 0x74 :: 0x70 :: t)
      (by rw [← hu, ht]) (by norm_num) (by decide)
    rw [← hu] at this
    exact this
  have hlast : unicode.IsSpace (utf8.DecodeLastRuneInString url).1 = false := by
    rcases (TrimSpace_spec ((strings.Split stdout 0x0A).getD i [])).2 with h0 | h1
    · rw [← hu, ht] at h0; exact absurd h0 (by simp)
    · rw [← hu] at h1; exact h1
  refine ⟨hp, ?_, hlast, hnl, hidem, ?_⟩
  · rw [ht, DecodeRuneInString_ascii _ _ (by norm_num)]; decide
  · rw [GetStreamURL_parse_eq, Split_of_not_mem url 0x0A hnl]
    simp only [List.length_singleton, GetStreamURL_scan, List.getD_cons_zero, hidem, hp, if_true]

theorem GetStreamURL_result_is_clean_witness :
    strings.HasPrefix (lit "https://b") (lit "http") = true
    ∧ unicode.IsSpace (utf8.DecodeRuneInString (lit "https://b")).1 = false
    ∧ unicode.IsSpace (utf8.DecodeLastRuneInString (lit "https://b")).1 = false
    ∧ 0x0A ∉ lit "https://b"
    ∧ strings.TrimSpace (lit "https://b") = lit "https://b"
    ∧ GetStreamURL_parse (lit "https://b") = (lit "https://b", none) :=
  GetStreamURL_result_is_clean (lit "http://a\nWARNING: x\n  https://b \nend") (lit "https://b")
    (by decide)

/-! ### `encoding/base64` -/

theorem decodeMap_encodeStd (v : Nat) (h : v < 64) : base64.decodeMap (base64.encodeStd v) = v := by
  unfold base64.encodeStd
  split_ifs <;> (unfold base64.decodeMap; split_ifs <;> omega)

theorem decodeMap_encodeStd_ne (v : Nat) (h : v < 64) :
    base64.decodeMap (base64.encodeStd v) ≠ 0xFF := by
  rw [decodeMap_encodeStd v h]; omega

theorem readQuantum_step (dbuf : List Nat) (v : Nat) (hv : v < 64) (rest : GoString) :
    base64.readQuantum dbuf (base64.encodeStd v :: rest)
      = if dbuf.length + 1 = 4 then some (dbuf ++ [v], rest)
        else base64.readQuantum (dbuf ++ [v]) rest := by
  simp only [base64.readQuantum]
  rw [if_pos (decodeMap_encodeStd_ne v hv), decodeMap_encodeStd v hv]

theorem readQuantum_full (v0 v1 v2 v3 : Nat) (h0 : v0 < 64) (h1 : v1 < 64) (h2 : v2 < 64)
    (h3 : v3 < 64) (rest : GoString) :
    base64.readQuantum [] (base64.encodeStd v0 :: base64.encodeStd v1 :: base64.encodeStd v2
        :: base64.encodeStd v3 :: rest) = some ([v0, v1, v2, v3], rest) := by
  rw [readQuantum_step _ _ h0, if_neg (by simp), readQuantum_step _ _ h1, if_neg (by simp),
    readQuantum_step _ _ h2, if_neg (by simp), readQuantum_step _ _ h3, if_pos (by simp)]
  rfl

theorem readQuantum_pad1 (v0 v1 v2 : Nat) (h0 : v0 < 64) (h1 : v1 < 64) (h2 : v2 < 64) :
    base64.readQuantum [] [base64.encodeStd v0, base64.encodeStd v1, base64.encodeStd v2, 0x3D]
      = some ([v0, v1, v2], []) := by
  rw [readQuantum_step _ _ h0, if_neg (by simp), readQuantum_step _ _ h1, if_neg (by simp),
    readQuantum_step _ _ h2, if_neg (by simp)]
  rfl

theorem readQuantum_pad2 (v0 v1 : Nat) (h0 : v0 < 64) (h1 : v1 < 64) :
    base64.readQuantum [] [base64.encodeStd v0, base64.encodeStd v1, 0x3D, 0x3D]
      = some ([v0, v1], []) := by
  rw [readQuantum_step _ _ h0, if_neg (by simp), readQuantum_step _ _ h1, if_neg (by simp)]
  rfl

theorem decodeLoop_encode (bs : GoString) (hb : ∀ b, b ∈ bs → b < 256) :
    ∀ fuel, (base64.EncodeToString bs).length ≤ fuel →
      base64.decodeLoop fuel (base64.EncodeToString bs) = some bs := by
  induction bs using base64.EncodeToString.induct with
  | case1 =>
    intro fuel _
    cases fuel <;> simp [base64.EncodeToString, base64.decodeLoop]
  | case2 a =>
    intro fuel hf
    have ha : a < 256 := hb a (by simp)
    obtain ⟨f, rfl⟩ : ∃ f, fuel = f + 1 := ⟨fuel - 1, by simp [base64.EncodeToString] at hf; omega⟩
    simp only [base64.EncodeToString, base64.decodeLoop]
    rw [readQuantum_pad2 _ _ (by omega) (by omega)]
    have : base64.decodeLoop f [] = some [] := by cases f <;> simp [base64.decodeLoop]
    simp [this, base64.quantumBytes]
    omega
  | case3 a b =>
    intro fuel hf
    have ha : a < 256 := hb a (by simp)
    have hb' : b < 256 := hb b (by simp)
    obtain ⟨f, rfl⟩ : ∃ f, fuel = f + 1 := ⟨fuel - 1, by simp [base64.EncodeToString] at hf; omega⟩
    simp only [base64.EncodeToString, base64.decodeLoop]
    rw [readQuantum_pad1 _ _ _ (by omega) (by omega) (by omega)]
    have : base64.decodeLoop f [] = some [] := by cases f <;> simp [base64.decodeLoop]
    simp [this, base64.quantumBytes]
    omega
  | case4 a b c t ih =>
    intro fuel hf
    have ha : a < 256 := hb a (by simp)
    have hb' : b < 256 := hb b (by simp)
    have hc : c < 256 := hb c (by simp)
    obtain ⟨f, rfl⟩ : ∃ f, fuel = f + 1 := ⟨fuel - 1, by simp [base64.EncodeToString] at hf; omega⟩
    simp only [base64.EncodeToString, base64.decodeLoop]
    rw [readQuantum_full _ _ _ _ (by omega) (by omega) (by omega) (by omega)]
    have := ih (fun x hx => hb x (by simp [hx])) f (by simp [base64.EncodeToString] at hf; omega)
    simp [this, base64.quantumBytes]
    omega

/-- A quantum read leaves no more input than it was given. -/
theorem readQuantum_length :
    ∀ (src : GoString) (dbuf d : List Nat) (rest : GoString),
      base64.readQuantum dbuf src = some (d, rest) → rest.length ≤ src.length := by
  intro src
  induction src with
  | nil =>
    intro dbuf d rest h
    simp only [base64.readQuantum] at h
    split_ifs at h
    simp only [Option.some.injEq, Prod.mk.injEq] at h
    obtain ⟨_, rfl⟩ := h
    simp
  | cons c cs ih =>
    intro dbuf d rest h
    simp only [base64.readQuantum] at h
    split_ifs at h
    · simp only [Option.some.injEq, Prod.mk.injEq] at h
      obtain ⟨_, rfl⟩ := h
      simp
    · have := ih _ _ _ h; simp only [List.length_cons]; omega
    · have := ih _ _ _ h; simp only [List.length_cons]; omega
    · split at h
      · exact absurd h (by simp)
      · split_ifs at h
        simp only [Option.some.injEq, Prod.mk.injEq] at h
        obtain ⟨_, rfl⟩ := h
        simp
    · simp only [Option.some.injEq, Prod.mk.injEq] at h
      obtain ⟨_, rfl⟩ := h
      simp

/-- A quantum read from a non-empty input leaves a shorter input. -/
theorem readQuantum_length_cons (c : Nat) (cs : GoString) (dbuf d : List Nat) (rest : GoString)
    (h : base64.readQuantum dbuf (c :: cs) = some (d, rest)) : rest.length ≤ cs.length := by
  simp only [base64.readQuantum] at h
  split_ifs at h
  · simp only [Option.some.injEq, Prod.mk.injEq] at h
    obtain ⟨_, rfl⟩ := h
    exact le_refl _
  · exact readQuantum_length _ _ _ _ h
  · exact readQuantum_length _ _ _ _ h
  · split at h
    · exact absurd h (by simp)
    · split_ifs at h
      simp only [Option.some.injEq, Prod.mk.injEq] at h
      obtain ⟨_, rfl⟩ := h
      simp
  · simp only [Option.some.injEq, Prod.mk.injEq] at h
    obtain ⟨_, rfl⟩ := h
    simp

/-- The loop of `Decode` gives the same result for every bound from the length
of the input up: the bound `len(src)` is never exhausted. -/
theorem decodeLoop_fuel :
    ∀ fuel1 fuel2 (src : GoString), src.length ≤ fuel1 → src.length ≤ fuel2 →
      base64.decodeLoop fuel1 src = base64.decodeLoop fuel2 src := by
  intro fuel1
  induction fuel1 with
  | zero =>
    intro fuel2 src h1 _
    have hs : src = [] := List.length_eq_zero.mp (by omega)
    subst hs
    cases fuel2 <;> simp [base64.decodeLoop]
  | succ fuel1 ih =>
    intro fuel2 src h1 h2
    cases src with
    | nil => cases fuel2 <;> simp [base64.decodeLoop]
    | cons c cs =>
      obtain ⟨k, rfl⟩ : ∃ k, fuel2 = k + 1 := ⟨fuel2 - 1, by simp at h2; omega⟩
      simp only [base64.decodeLoop, reduceCtorEq, if_false]
      rcases hq : base64.readQuantum [] (c :: cs) with _ | ⟨d, rest⟩
      · rfl
      · have hl := readQuantum_length_cons c cs [] d rest hq
        simp only [List.length_cons] at h1 h2
        simp only []
        rw [ih k rest (by omega) (by omega)]

/-- `DecodeString` inverts `EncodeToString` on byte strings. -/
theorem DecodeString_EncodeToString (bs : GoString) (hb : ∀ b, b ∈ bs → b < 256) :
    base64.DecodeString (base64.EncodeToString bs) = some bs :=
  decodeLoop_encode bs hb _ (le_refl _)

/-! ### The file system -/

theorem stat_put_same (fs : FileSystem) (p : GoString) (n : Node) : (fs.put p n).stat p = some n := by
  simp [FileSystem.put, FileSystem.stat]

theorem stat_unlink_same (fs : FileSystem) (p : GoString) : (fs.unlink p).stat p = none := by
  simp [FileSystem.unlink, FileSystem.stat]

/-- A successful `os.WriteFile` leaves a regular file with the bytes written. -/
theorem WriteFile_ok (fs : FileSystem) (name data : GoString)
    (h : (os.WriteFile fs name data).2 = none) :
    (os.WriteFile fs name data).1.stat name = some (Node.file data) := by
  unfold os.WriteFile at h ⊢
  by_cases hd : name ∈ fs.denied
  · simp [hd] at h
  · rcases hs : fs.stat name with _ | (_ | _)
    · simp [hd, hs, stat_put_same]
    · simp [hd, hs, stat_put_same]
    · simp [hd, hs] at h

/-- A successful `os.Remove` leaves nothing at the path. -/
theorem Remove_ok (fs : FileSystem) (name : GoString) (h : (os.Remove fs name).2 = none) :
    (os.Remove fs name).1.stat name = none := by
  unfold os.Remove at h ⊢
  rcases hs : fs.stat name with _ | (_ | _)
  · simp [hs] at h
  · by_cases hd : name ∈ fs.denied
    · simp [hs, hd] at h
    · simp [hs, hd, stat_unlink_same]
  · by_cases hd : name ∈ fs.denied
    · simp [hs, hd] at h
    · by_cases hc : fs.hasChild name = true
      · simp [hs, hd, hc] at h
      · simp [hs, hd, hc, stat_unlink_same]

/-- A failed `os.Remove` changes nothing. -/
theorem Remove_err (fs : FileSystem) (name : GoString) (h : (os.Remove fs name).2 ≠ none) :
    (os.Remove fs name).1 = fs := by
  unfold os.Remove at h ⊢
  rcases hs : fs.stat name with _ | (_ | _)
  · simp [hs]
  · by_cases hd : name ∈ fs.denied
    · simp [hs, hd]
    · simp [hs, hd] at h
  · by_cases hd : name ∈ fs.denied
    · simp [hs, hd]
    · by_cases hc : fs.hasChild name = true
      · simp [hs, hd, hc]
      · simp [hs, hd, hc] at h

/-! ### `NewYtdlpWrapper` -/

theorem NewYtdlpWrapper_empty (getenv : GoString → GoString) (fs : FileSystem)
    (h : getenv (lit "YOUTUBE_COOKIES") = []) :
    NewYtdlpWrapper getenv fs = ({ cookiePath := [] }, fs) := by
  simp [NewYtdlpWrapper, h]

theorem NewYtdlpWrapper_written (getenv : GoString → GoString) (fs : FileSystem)
    (h : getenv (lit "YOUTUBE_COOKIES") ≠ [])
    (hw : (os.WriteFile fs (lit "./cookies.txt")
      (decodedCookies (getenv (lit "YOUTUBE_COOKIES")))).2 = none) :
    NewYtdlpWrapper getenv fs
      = ({ cookiePath := lit "./cookies.txt" },
          (os.WriteFile fs (lit "./cookies.txt")
            (decodedCookies (getenv (lit "YOUTUBE_COOKIES")))).1) := by
  simp only [NewYtdlpWrapper, h, ne_eq, not_false_eq_true, if_true]
  generalize os.WriteFile fs (lit "./cookies.txt")
    (decodedCookies (getenv (lit "YOUTUBE_COOKIES"))) = r at hw ⊢
  obtain ⟨fs1, e⟩ := r
  simp only at hw
  subst hw
  rfl

theorem NewYtdlpWrapper_refused (getenv : GoString → GoString) (fs : FileSystem)
    (h : getenv (lit "YOUTUBE_COOKIES") ≠ [])
    (hw : (os.WriteFile fs (lit "./cookies.txt")
      (decodedCookies (getenv (lit "YOUTUBE_COOKIES")))).2 ≠ none) :
    (NewYtdlpWrapper getenv fs).1 = { cookiePath := [] } := by
  simp only [NewYtdlpWrapper, h, ne_eq, not_false_eq_true, if_true]
  generalize os.WriteFile fs (lit "./cookies.txt")
    (decodedCookies (getenv (lit "YOUTUBE_COOKIES"))) = r at hw ⊢
  obtain ⟨fs1, e⟩ := r
  cases e with
  | none => exact absurd rfl hw
  | some e => rfl

/-- C4: for a non-empty value of `YOUTUBE_COOKIES` and a successful write,
`NewYtdlpWrapper` leaves `./cookies.txt` holding the bytes `DecodeString`
returns when the value is valid base64 (so the bytes `bs` when the value is the
standard encoding of `bs`), and holding the value itself when it is not valid
base64. -/
theorem NewYtdlpWrapper_cookie_file_contents (getenv : GoString → GoString) (fs : FileSystem)
    (hv : getenv (lit "YOUTUBE_COOKIES") ≠ []) :
    (∀ d, base64.DecodeString (getenv (lit "YOUTUBE_COOKIES")) = some d →
      (os.WriteFile fs (lit "./cookies.txt") d).2 = none →
      (NewYtdlpWrapper getenv fs).2.stat (lit "./cookies.txt") = some (Node.file d))
    ∧ (base64.DecodeString (getenv (lit "YOUTUBE_COOKIES")) = none →
      (os.WriteFile fs (lit "./cookies.txt") (getenv (lit "YOUTUBE_COOKIES"))).2 = none →
      (NewYtdlpWrapper getenv fs).2.stat (lit "./cookies.txt")
        = some (Node.file (getenv (lit "YOUTUBE_COOKIES"))))
    ∧ (∀ bs, (∀ b, b ∈ bs → b < 256) →
      getenv (lit "YOUTUBE_COOKIES") = base64.EncodeToString bs →
      (os.WriteFile fs (lit "./cookies.txt") bs).2 = none →
      (NewYtdlpWrapper getenv fs).2.stat (lit "./cookies.txt") = some (Node.file bs)) := by
  have key : ∀ d, decodedCookies (getenv (lit "YOUTUBE_COOKIES")) = d →
      (os.WriteFile fs (lit "./cookies.txt") d).2 = none →
      (NewYtdlpWrapper getenv fs).2.stat (lit "./cookies.txt") = some (Node.file d) := by
    intro d hd hw
    subst hd
    rw [NewYtdlpWrapper_written getenv fs hv hw]
    exact WriteFile_ok _ _ _ hw
  refine ⟨?_, ?_, ?_⟩
  · intro d hd hw
    exact key d (by simp [decodedCookies, hd]) hw
  · intro hd hw
    exact key _ (by simp [decodedCookies, hd]) hw
  · intro bs hb he hw
    exact key bs (by simp [decodedCookies, he, DecodeString_EncodeToString bs hb]) hw

theorem NewYtdlpWrapper_cookie_file_contents_witness :
    (NewYtdlpWrapper (fun _ => lit "aGVsbG8=") { nodes := [], denied := [] }).2.stat
        (lit "./cookies.txt") = some (Node.file (lit "hello"))
    ∧ (NewYtdlpWrapper (fun _ => lit "not base64!") { nodes := [], denied := [] }).2.stat
        (lit "./cookies.txt") = some (Node.file (lit "not base64!")) :=
  ⟨(NewYtdlpWrapper_cookie_file_contents (fun _ => lit "aGVsbG8=") { nodes := [], denied := [] }
      (by decide)).1 (lit "hello") (by decide) (by decide),
   (NewYtdlpWrapper_cookie_file_contents (fun _ => lit "not base64!") { nodes := [], denied := [] }
      (by decide)).2.1 (by decide) (by decide)⟩

/-- C5: `NewYtdlpWrapper` always returns a wrapper (it has no error result).
Its `cookiePath` is `./cookies.txt` if and only if `YOUTUBE_COOKIES` is
non-empty and the write of the cookie file succeeded, and is empty otherwise;
for an empty value the file system is left untouched, and after a failed write
`cookiePath` is empty. -/
theorem NewYtdlpWrapper_cookiePath (getenv : GoString → GoString) (fs : FileSystem) :
    ((NewYtdlpWrapper getenv fs).1.cookiePath = lit "./cookies.txt" ↔
      (getenv (lit "YOUTUBE_COOKIES") ≠ []
        ∧ (os.WriteFile fs (lit "./cookies.txt")
            (decodedCookies (getenv (lit "YOUTUBE_COOKIES")))).2 = none))
    ∧ ((NewYtdlpWrapper getenv fs).1.cookiePath = lit "./cookies.txt"
        ∨ (NewYtdlpWrapper getenv fs).1.cookiePath = [])
    ∧ (getenv (lit "YOUTUBE_COOKIES") = [] →
        (NewYtdlpWrapper getenv fs).1.cookiePath = [] ∧ (NewYtdlpWrapper getenv fs).2 = fs)
    ∧ (getenv (lit "YOUTUBE_COOKIES") ≠ [] →
        (os.WriteFile fs (lit "./cookies.txt")
          (decodedCookies (getenv (lit "YOUTUBE_COOKIES")))).2 ≠ none →
        (NewYtdlpWrapper getenv fs).1.cookiePath = []) := by
  have hne : lit "./cookies.txt" ≠ [] := by decide
  by_cases hv : getenv (lit "YOUTUBE_COOKIES") = []
  · rw [NewYtdlpWrapper_empty getenv fs hv]
    refine ⟨?_, Or.inr rfl, fun _ => ⟨rfl, rfl⟩, fun h => absurd hv h⟩
    constructor
    · intro h; exact absurd h.symm hne
    · intro h; exact absurd hv h.1
  · by_cases hw : (os.WriteFile fs (lit "./cookies.txt")
        (decodedCookies (getenv (lit "YOUTUBE_COOKIES")))).2 = none
    · rw [NewYtdlpWrapper_written getenv fs hv hw]
      exact ⟨⟨fun _ => ⟨hv, hw⟩, fun _ => rfl⟩, Or.inl rfl, fun h => absurd h hv,
        fun _ h => absurd hw h⟩
    · have e := NewYtdlpWrapper_refused getenv fs hv hw
      rw [e]
      refine ⟨?_, Or.inr rfl, fun h => absurd h hv, fun _ _ => rfl⟩
      constructor
      · intro h; exact absurd h.symm hne
      · intro h; exact absurd h.2 hw

/-! ### The commands -/

theorem getClient_cookieFlags (y : YtdlpWrapper) :
    cookieFlags y.getClient
      = if y.cookiePath ≠ [] then
          [{ ID := "cookiefile", Flag := "--cookies", Args := [y.cookiePath] }]
        else [] := by
  unfold YtdlpWrapper.getClient
  by_cases h : y.cookiePath = []
  · simp [h, cookieFlags, ytdlp.New]
  · simp [h, cookieFlags, ytdlp.New, ytdlp.Command.Cookies, ytdlp.Command.addFlag]

/-- C8: in each of the three modes (stream URL, metadata dump, download) the
command built for the extractor carries the option `--cookies`, once and with
the wrapper's `cookiePath` as its only argument, if `cookiePath` is not empty,
and carries no `--cookies` option if it is empty. -/
theorem commands_carry_cookies_iff (y : YtdlpWrapper) (now : Time) :
    ∀ c, c ∈ [y.streamCommand, y.metaCommand now, y.downloadCommand now] →
      cookieFlags c
          = (if y.cookiePath ≠ [] then
              [{ ID := "cookiefile", Flag := "--cookies", Args := [y.cookiePath] }]
            else [])
      ∧ ((∃ f, f ∈ c.flags ∧ f.Flag = "--cookies" ∧ f.Args = [y.cookiePath]) ↔ y.cookiePath ≠ [])
      ∧ ((∃ f, f ∈ c.flags ∧ f.Flag = "--cookies") ↔ y.cookiePath ≠ []) := by
  have key : ∀ c : ytdlp.Command,
      cookieFlags c
          = (if y.cookiePath ≠ [] then
              [{ ID := "cookiefile", Flag := "--cookies", Args := [y.cookiePath] }]
            else []) →
      ((∃ f, f ∈ c.flags ∧ f.Flag = "--cookies" ∧ f.Args = [y.cookiePath]) ↔ y.cookiePath ≠ [])
      ∧ ((∃ f, f ∈ c.flags ∧ f.Flag = "--cookies") ↔ y.cookiePath ≠ []) := by
    intro c hc
    have hmem : ∀ f, f ∈ cookieFlags c ↔ f ∈ c.flags ∧ f.Flag = "--cookies" := by
      intro f; simp [cookieFlags]
    by_cases h : y.cookiePath = []
    · rw [if_neg (by simpa using h)] at hc
      constructor
      · constructor
        · rintro ⟨f, hf, hflag, _⟩
          have := (hmem f).mpr ⟨hf, hflag⟩
          rw [hc] at this; simp at this
        · intro hne; exact absurd h hne
      · constructor
        · rintro ⟨f, hf, hflag⟩
          have := (hmem f).mpr ⟨hf, hflag⟩
          rw [hc] at this; simp at this
        · intro hne; exact absurd h hne
    · rw [if_pos h] at hc
      have hin : ({ ID := "cookiefile", Flag := "--cookies", Args := [y.cookiePath] } : ytdlp.Flag)
          ∈ cookieFlags c := by rw [hc]; simp
      have := (hmem _).mp hin
      exact ⟨⟨fun _ => h, fun _ => ⟨_, this.1, rfl, rfl⟩⟩, ⟨fun _ => h, fun _ => ⟨_, this.1, rfl⟩⟩⟩
  have hbase := getClient_cookieFlags y
  intro c hc
  simp only [List.mem_cons, List.mem_singleton, List.not_mem_nil, or_false] at hc
  have hflags : cookieFlags c = cookieFlags y.getClient := by
    rcases hc with rfl | rfl | rfl
    · simp [cookieFlags, YtdlpWrapper.streamCommand, ytdlp.Command.GetURL, ytdlp.Command.addFlag]
    · simp [cookieFlags, YtdlpWrapper.metaCommand, ytdlp.Command.DumpJSON,
        ytdlp.Command.SkipDownload, ytdlp.Command.Output, ytdlp.Command.addFlag]
    · simp [cookieFlags, YtdlpWrapper.downloadCommand, ytdlp.Command.NoPart,
        ytdlp.Command.NoPlaylist, ytdlp.Command.NoOverwrites, ytdlp.Command.NoKeepVideo,
        ytdlp.Command.Format, ytdlp.Command.Output, ytdlp.Command.addFlag]
  rw [hflags]
  exact ⟨hbase, key c (hflags ▸ hbase)⟩

theorem commands_carry_cookies_iff_witness :
    cookieFlags (YtdlpWrapper.downloadCommand { cookiePath := lit "./cookies.txt" }
        ⟨2024, 1, 2, 3, 4, 5, 0⟩)
      = [{ ID := "cookiefile", Flag := "--cookies", Args := [lit "./cookies.txt"] }]
    ∧ cookieFlags (YtdlpWrapper.streamCommand { cookiePath := [] }) = [] :=
  ⟨(commands_carry_cookies_iff { cookiePath := lit "./cookies.txt" } ⟨2024, 1, 2, 3, 4, 5, 0⟩ _
      (by simp)).1.trans (by decide),
   (commands_carry_cookies_iff { cookiePath := [] } ⟨2024, 1, 2, 3, 4, 5, 0⟩ _ (by simp)).1.trans
      (by decide)⟩

/-! ### `GetMetaInfo` -/

/-- C6: when the subprocess succeeds and `json.Unmarshal` accepts its standard
output, `GetMetaInfo` returns the record of that parse with `Parser` set to
`yt-dlp`, whatever the parse had put there, every other field as parsed, and no
error; so a parse of `{"title":"Song","duration":120}` to the title `Song` and
the duration 120 gives `Meta{Title: "Song", Duration: 120, Parser: "yt-dlp"}`. -/
theorem GetMetaInfo_sets_origin_tag (y : YtdlpWrapper) (run : ytdlp.Runner) (unmarshal : Unmarshal)
    (now : Time) (url : GoString) (fs : FileSystem) (m : Meta)
    (hrun : (run (y.metaCommand now) none url fs).err = none)
    (hparse : unmarshal (run (y.metaCommand now) none url fs).result.Stdout Meta.zero = (m, none)) :
    (y.GetMetaInfo run unmarshal now url fs).1 = ({ m with Parser := lit "yt-dlp" }, none)
    ∧ (y.GetMetaInfo run unmarshal now url fs).1.1.Parser = lit "yt-dlp"
    ∧ (y.GetMetaInfo run unmarshal now url fs).1.1.Title = m.Title
    ∧ (y.GetMetaInfo run unmarshal now url fs).1.1.Duration = m.Duration
    ∧ (y.GetMetaInfo run unmarshal now url fs).1.1.Uploader = m.Uploader
    ∧ (m.Title = lit "Song" → m.Duration = 120 → m.Uploader = [] →
        (y.GetMetaInfo run unmarshal now url fs).1
          = ({ Title := lit "Song", Duration := 120, Uploader := [], Parser := lit "yt-dlp" },
              none)) := by
  have e : (y.GetMetaInfo run unmarshal now url fs).1 = ({ m with Parser := lit "yt-dlp" }, none) := by
    simp only [YtdlpWrapper.GetMetaInfo, hrun, GetMetaInfo_parse, hparse]
  rw [e]
  refine ⟨rfl, rfl, rfl, rfl, rfl, ?_⟩
  intro h1 h2 h3
  rw [← h1, ← h2, ← h3]

theorem GetMetaInfo_sets_origin_tag_witness :
    (YtdlpWrapper.GetMetaInfo { cookiePath := [] }
        (fun _ _ _ fs =>
          { result := { Stdout := lit "\x7b\"title\":\"Song\",\"duration\":120\x7d", ExitCode := 0 },
            err := none, fs := fs })
        sampleUnmarshal ⟨2024, 1, 2, 3, 4, 5, 0⟩ (lit "https://example.com/watch?id=1")
        { nodes := [], denied := [] }).1
      = ({ Title := lit "Song", Duration := 120, Uploader := [], Parser := lit "yt-dlp" }, none) :=
  (GetMetaInfo_sets_origin_tag { cookiePath := [] }
    (fun _ _ _ fs =>
      { result := { Stdout := lit "\x7b\"title\":\"Song\",\"duration\":120\x7d", ExitCode := 0 },
        err := none, fs := fs })
    sampleUnmarshal ⟨2024, 1, 2, 3, 4, 5, 0⟩ (lit "https://example.com/watch?id=1")
    { nodes := [], denied := [] }
    { Title := lit "Song", Duration := 120, Uploader := [], Parser := [] } rfl (by decide)).2.2.2.2.2
    rfl rfl rfl

/-! ### `DownloadStream` -/

/-- `DownloadStream` when the cache directory is there and the subprocess fails. -/
theorem DownloadStream_run_failed (y : YtdlpWrapper) (run : ytdlp.Runner)
    (quote : GoString → GoString) (getwd : GoString × GoError) (now : Time) (url : GoString)
    (fs : FileSystem) (e : GoString)
    (hmk : (os.MkdirAll fs cacheDir).2 = none)
    (hrun : (run (y.downloadCommand now) (some downloadTimeout) url (os.MkdirAll fs cacheDir).1).err
      = some e) :
    y.DownloadStream run quote getwd now url fs
      = ((none, [],
          some (lit "failed to download stream from URL " ++ quote url ++ lit ": " ++ e)),
        (os.Remove (run (y.downloadCommand now) (some downloadTimeout) url
          (os.MkdirAll fs cacheDir).1).fs (outputFile now)).1) := by
  unfold YtdlpWrapper.DownloadStream
  generalize os.MkdirAll fs cacheDir = r at hmk hrun ⊢
  obtain ⟨fs1, e1⟩ := r
  simp only at hmk hrun
  subst hmk
  simp only [hrun, Errorf]

/-- C7, as stated, fails: the subprocess writes a partial file at the output
path, keeps it from being removed (the file is still held open) and fails;
`os.Remove` then fails, its error is discarded, and the file is still there
after `DownloadStream` has returned its error. -/
theorem DownloadStream_failure_may_leave_file :
    (heldOpenRun (YtdlpWrapper.downloadCommand { cookiePath := [] } ⟨2024, 1, 2, 3, 4, 5, 0⟩)
        (some downloadTimeout) (lit "https://example.com/watch?id=1")
        (os.MkdirAll { nodes := [], denied := [] } cacheDir).1).err ≠ none
    ∧ (YtdlpWrapper.DownloadStream { cookiePath := [] } heldOpenRun (fun s => [0x22] ++ s ++ [0x22])
        (lit "/srv/bot", none) ⟨2024, 1, 2, 3, 4, 5, 0⟩ (lit "https://example.com/watch?id=1")
        { nodes := [], denied := [] }).2.stat (outputFile ⟨2024, 1, 2, 3, 4, 5, 0⟩)
      = some (Node.file (lit "partial")) := by
  decide

/-- C7, amended: when the cache directory is there and the extractor subprocess
fails, `DownloadStream` returns a nil result, an empty path and an error whose
text contains the requested URL as `%q` writes it; it tries to remove the
output path and discards the error of the removal, so that afterwards nothing
is at the output path exactly when nothing was there after the subprocess or
the removal succeeded, and after a failed removal the file system is as the
subprocess left it. -/
theorem DownloadStream_failure_cleanup (y : YtdlpWrapper) (run : ytdlp.Runner)
    (quote : GoString → GoString) (getwd : GoString × GoError) (now : Time) (url : GoString)
    (fs : FileSystem) (e : GoString)
    (hmk : (os.MkdirAll fs cacheDir).2 = none)
    (hrun : (run (y.downloadCommand now) (some downloadTimeout) url (os.MkdirAll fs cacheDir).1).err
      = some e) :
    (y.DownloadStream run quote getwd now url fs).1
      = (none, [], some (lit "failed to download stream from URL " ++ quote url ++ lit ": " ++ e))
    ∧ ((y.DownloadStream run quote getwd now url fs).2.stat (outputFile now) = none ↔
        ((run (y.downloadCommand now) (some downloadTimeout) url
            (os.MkdirAll fs cacheDir).1).fs.stat (outputFile now) = none
          ∨ (os.Remove (run (y.downloadCommand now) (some downloadTimeout) url
              (os.MkdirAll fs cacheDir).1).fs (outputFile now)).2 = none))
    ∧ ((os.Remove (run (y.downloadCommand now) (some downloadTimeout) url
          (os.MkdirAll fs cacheDir).1).fs (outputFile now)).2 ≠ none →
        (y.DownloadStream run quote getwd now url fs).2
          = (run (y.downloadCommand now) (some downloadTimeout) url
              (os.MkdirAll fs cacheDir).1).fs) := by
  rw [DownloadStream_run_failed y run quote getwd now url fs e hmk hrun]
  generalize (run (y.downloadCommand now) (some downloadTimeout) url
    (os.MkdirAll fs cacheDir).1).fs = fs2
  refine ⟨rfl, ?_, fun h => Remove_err fs2 _ h⟩
  by_cases hr : (os.Remove fs2 (outputFile now)).2 = none
  · simp only [hr, or_true, iff_true]
    exact Remove_ok fs2 _ hr
  · simp only [hr, or_false]
    rw [Remove_err fs2 _ hr]

theorem DownloadStream_failure_cleanup_witness :
    (YtdlpWrapper.DownloadStream { cookiePath := [] }
        (fun _ _ _ fs =>
          { result := { Stdout := [], ExitCode := 1 }, err := some (lit "exit status 1"),
            fs := fs.put (lit "cache/20240102_030405") (Node.file (lit "partial")) })
        (fun s => [0x22] ++ s ++ [0x22]) (lit "/srv/bot", none) ⟨2024, 1, 2, 3, 4, 5, 0⟩
        (lit "https://a.b/c") { nodes := [], denied := [] }).1
      = (none, [], some (lit "failed to download stream from URL \"https://a.b/c\": exit status 1"))
    ∧ (YtdlpWrapper.DownloadStream { cookiePath := [] }
        (fun _ _ _ fs =>
          { result := { Stdout := [], ExitCode := 1 }, err := some (lit "exit status 1"),
            fs := fs.put (lit "cache/20240102_030405") (Node.file (lit "partial")) })
        (fun s => [0x22] ++ s ++ [0x22]) (lit "/srv/bot", none) ⟨2024, 1, 2, 3, 4, 5, 0⟩
        (lit "https://a.b/c") { nodes := [], denied := [] }).2.stat
          (outputFile ⟨2024, 1, 2, 3, 4, 5, 0⟩) = none :=
  have h := DownloadStream_failure_cleanup { cookiePath := [] }
    (fun _ _ _ fs =>
      { result := { Stdout := [], ExitCode := 1 }, err := some (lit "exit status 1"),
        fs := fs.put (lit "cache/20240102_030405") (Node.file (lit "partial")) })
    (fun s => [0x22] ++ s ++ [0x22]) (lit "/srv/bot", none) ⟨2024, 1, 2, 3, 4, 5, 0⟩
    (lit "https://a.b/c") { nodes := [], denied := [] } (lit "exit status 1") (by decide) rfl
  ⟨h.1.trans (by decide), h.2.1.mpr (Or.inr (by decide))⟩

/-! ### `time`: `appendInt` and `Format` -/

theorem digitsLoop_append (fuel : Nat) :
    ∀ u acc, Time.digitsLoop fuel u acc = Time.digitsLoop fuel u [] ++ acc := by
  induction fuel with
  | zero => intro u acc; simp [Time.digitsLoop]
  | succ fuel ih =>
    intro u acc
    simp only [Time.digitsLoop]
    split_ifs
    · simp
    · rw [ih (u / 10) ((0x30 + u % 10) :: acc), ih (u / 10) [0x30 + u % 10]]
      simp

theorem digitsValue_snoc (l : GoString) (d : Nat) :
    digitsValue (l ++ [d]) = digitsValue l * 10 + (d - 0x30) := by
  simp [digitsValue, List.foldl_append]

theorem digitsValue_digitsLoop (fuel : Nat) :
    ∀ u, u ≤ fuel → digitsValue (Time.digitsLoop fuel u []) = u := by
  induction fuel with
  | zero => intro u hu; simp [Time.digitsLoop, digitsValue]; omega
  | succ fuel ih =>
    intro u hu
    simp only [Time.digitsLoop]
    split_ifs with h0
    · simp [digitsValue, h0]
    · rw [digitsLoop_append, digitsValue_snoc, ih (u / 10) (by omega)]
      omega

theorem AllDigits_digitsLoop (fuel : Nat) :
    ∀ u, AllDigits (Time.digitsLoop fuel u []) := by
  induction fuel with
  | zero => intro u b hb; simp [Time.digitsLoop] at hb
  | succ fuel ih =>
    intro u b hb
    simp only [Time.digitsLoop] at hb
    split_ifs at hb with h0
    · simp at hb
    · rw [digitsLoop_append] at hb
      rcases List.mem_append.mp hb with h | h
      · exact ih _ b h
      · simp at h; omega

theorem digitsValue_decimal (u : Nat) : digitsValue (Time.decimal u) = u := by
  unfold Time.decimal
  split_ifs with h
  · simp [digitsValue, h]
  · exact digitsValue_digitsLoop u u (le_refl _)

theorem AllDigits_decimal (u : Nat) : AllDigits (Time.decimal u) := by
  unfold Time.decimal
  split_ifs with h
  · intro b hb; simp at hb; omega
  · exact AllDigits_digitsLoop u u

theorem decimal_ne_nil (u : Nat) : Time.decimal u ≠ [] := by
  intro h
  have := digitsValue_decimal u
  rw [h] at this
  have hu : u = 0 := by simpa [digitsValue] using this.symm
  subst hu
  simp [Time.decimal] at h

theorem digitsValue_zeros (k : Nat) (l : GoString) :
    digitsValue (List.replicate k 0x30 ++ l) = digitsValue l := by
  induction k with
  | zero => simp
  | succ k ih =>
    simp only [List.replicate_succ, List.cons_append]
    simp only [digitsValue, List.foldl_cons] at ih ⊢
    simpa using ih

theorem digitsValue_padded (u width : Nat) : digitsValue (paddedDigits u width) = u := by
  rw [paddedDigits, digitsValue_zeros, digitsValue_decimal]

theorem AllDigits_padded (u width : Nat) : AllDigits (paddedDigits u width) := by
  intro b hb
  rcases List.mem_append.mp hb with h | h
  · have := List.eq_of_mem_replicate h; omega
  · exact AllDigits_decimal u b h

theorem padded_ne_nil (u width : Nat) : paddedDigits u width ≠ [] := by
  intro h
  simp [paddedDigits] at h
  exact decimal_ne_nil u h.2

theorem appendInt_eq (x : Int) (width : Nat) :
    Time.appendInt x width
      = (if x < 0 then [0x2D] else []) ++ paddedDigits x.natAbs width := by
  simp [Time.appendInt, paddedDigits, List.append_assoc]

theorem appendInt_nat (u width : Nat) : Time.appendInt (u : Int) width = paddedDigits u width := by
  rw [appendInt_eq]
  simp

theorem appendInt_inj (x y : Int) (width : Nat) (h : Time.appendInt x width = Time.appendInt y width) :
    x = y := by
  rw [appendInt_eq, appendInt_eq] at h
  by_cases hx : x < 0 <;> by_cases hy : y < 0
  · simp only [hx, hy, if_true, List.cons_append, List.nil_append, List.cons.injEq, true_and] at h
    have := congrArg digitsValue h
    rw [digitsValue_padded, digitsValue_padded] at this
    omega
  · simp only [hx, hy, if_true, if_false, List.cons_append, List.nil_append] at h
    have := AllDigits_padded y.natAbs width 0x2D (by rw [← h]; simp)
    omega
  · simp only [hx, hy, if_true, if_false, List.cons_append, List.nil_append] at h
    have := AllDigits_padded x.natAbs width 0x2D (by rw [h]; simp)
    omega
  · simp only [hx, hy, if_false, List.nil_append] at h
    have := congrArg digitsValue h
    rw [digitsValue_padded, digitsValue_padded] at this
    omega

theorem appendInt_two_length (u : Nat) (h : u < 100) : (Time.appendInt (u : Int) 2).length = 2 := by
  interval_cases u <;> rfl

theorem appendInt_nat_inj (u v width : Nat)
    (h : Time.appendInt (u : Int) width = Time.appendInt (v : Int) width) : u = v := by
  have := appendInt_inj _ _ _ h
  omega

theorem appendInt_bytes (x : Int) (width : Nat) : ∀ b, b ∈ Time.appendInt x width → FormatByte b := by
  intro b hb
  rw [appendInt_eq] at hb
  rcases List.mem_append.mp hb with h | h
  · split_ifs at h
    · simp at h; exact Or.inr (Or.inr h)
    · simp at h
  · exact Or.inl (AllDigits_padded _ _ b h)

theorem Format_bytes (t : Time) : ∀ b, b ∈ t.Format → FormatByte b := by
  intro b hb
  simp only [Time.Format, List.mem_append, List.mem_singleton] at hb
  rcases hb with (((((h | h) | h) | h) | h) | h) | h
  all_goals first
    | exact appendInt_bytes _ _ b h
    | exact Or.inr (Or.inl h)

theorem Format_ne_nil (t : Time) : t.Format ≠ [] := by
  simp [Time.Format]

/-- `Format` determines the year, month, day, hour, minute and second of a
valid clock reading. -/
theorem Format_inj (t1 t2 : Time) (h1 : t1.Valid) (h2 : t2.Valid) (h : t1.Format = t2.Format) :
    t1.year = t2.year ∧ t1.month = t2.month ∧ t1.day = t2.day ∧ t1.hour = t2.hour
      ∧ t1.minute = t2.minute ∧ t1.second = t2.second := by
  obtain ⟨_, a2, _, a4, a5, a6, a7, _⟩ := h1
  obtain ⟨_, b2, _, b4, b5, b6, b7, _⟩ := h2
  have len : ∀ u : Nat, u < 100 → (Time.appendInt (u : Int) 2).length = 2 := appendInt_two_length
  simp only [Time.Format] at h
  obtain ⟨h, hs⟩ := List.append_inj' h (by rw [len _ (by omega), len _ (by omega)])
  obtain ⟨h, hm⟩ := List.append_inj' h (by rw [len _ (by omega), len _ (by omega)])
  obtain ⟨h, hh⟩ := List.append_inj' h (by rw [len _ (by omega), len _ (by omega)])
  obtain ⟨h, _⟩ := List.append_inj' h rfl
  obtain ⟨h, hd⟩ := List.append_inj' h (by rw [len _ (by omega), len _ (by omega)])
  obtain ⟨hy, hmo⟩ := List.append_inj' h (by rw [len _ (by omega), len _ (by omega)])
  exact ⟨appendInt_inj _ _ _ hy, appendInt_nat_inj _ _ _ hmo, appendInt_nat_inj _ _ _ hd,
    appendInt_nat_inj _ _ _ hh, appendInt_nat_inj _ _ _ hm, appendInt_nat_inj _ _ _ hs⟩

/-! ### `filepath.Join` on the cache directory -/

/-- Joining `./cache` and a name of digits, `_` and `-` gives `cache/` and the name. -/
theorem Join_cacheDir (ts : GoString) (hb : ∀ b, b ∈ ts → FormatByte b) (hne : ts ≠ []) :
    filepath.Join [cacheDir, ts] = lit "cache/" ++ ts := by
  have hslash : 0x2F ∉ ts := by
    intro h; rcases hb _ h with h | h | h <;> omega
  have hdot : 0x2E ∉ ts := by
    intro h; rcases hb _ h with h | h | h <;> omega
  have hd1 : lit "." = [0x2E] := by decide
  have hd2 : lit ".." = [0x2E, 0x2E] := by decide
  have h1 : ts ≠ [0x2E] := by
    intro e; apply hdot; rw [e]; decide
  have h2 : ts ≠ [0x2E, 0x2E] := by
    intro e; apply hdot; rw [e]; decide
  have hc : cacheDir = [0x2E, 0x2F, 0x63, 0x61, 0x63, 0x68, 0x65] := by decide
  have hl : lit "/" = [0x2F] := by decide
  have hcache : lit "cache/" = [0x63, 0x61, 0x63, 0x68, 0x65, 0x2F] := by decide
  simp only [filepath.Join, hc, hl, hcache, hd1, hd2]
  simp only [List.dropWhile, List.intercalate, List.intersperse, List.flatten, filepath.Clean,
    filepath.cleanStep, hd1, hd2]
  simp [strings.Split, Split_of_not_mem ts 0x2F hslash, hne, h1, h2, filepath.cleanStep, hd1, hd2,
    hl]

theorem outputFile_eq (t : Time) : outputFile t = lit "cache/" ++ t.Format :=
  Join_cacheDir t.Format (Format_bytes t) (Format_ne_nil t)

/-- C9: the output path of `DownloadStream` is `filepath.Join(cacheDir, ts)`,
that is `cache/` followed by the `YYYYMMDD_HHMMSS` reading `ts` of the clock,
and it is the `--output` argument of the download command whatever the URL.
Two valid readings with the same year, month, day, hour, minute and second
give the same path, and two that differ in one of these give different paths. -/
theorem outputFile_by_clock_second (t1 t2 : Time) (h1 : t1.Valid) (h2 : t2.Valid) :
    outputFile t1 = lit "cache/" ++ t1.Format
    ∧ (∀ y : YtdlpWrapper,
        ({ ID := "outtmpl", Flag := "--output", Args := [outputFile t1] } : ytdlp.Flag)
          ∈ (y.downloadCommand t1).flags)
    ∧ (t1.year = t2.year → t1.month = t2.month → t1.day = t2.day → t1.hour = t2.hour →
        t1.minute = t2.minute → t1.second = t2.second → outputFile t1 = outputFile t2)
    ∧ ((t1.year ≠ t2.year ∨ t1.month ≠ t2.month ∨ t1.day ≠ t2.day ∨ t1.hour ≠ t2.hour
          ∨ t1.minute ≠ t2.minute ∨ t1.second ≠ t2.second) →
        outputFile t1 ≠ outputFile t2) := by
  refine ⟨outputFile_eq t1, ?_, ?_, ?_⟩
  · intro y
    simp [YtdlpWrapper.downloadCommand, ytdlp.Command.Output, ytdlp.Command.addFlag]
  · intro e1 e2 e3 e4 e5 e6
    simp only [outputFile, Time.Format, e1, e2, e3, e4, e5, e6]
  · intro hne heq
    rw [outputFile_eq, outputFile_eq] at heq
    obtain ⟨e1, e2, e3, e4, e5, e6⟩ := Format_inj t1 t2 h1 h2 (List.append_cancel_left heq)
    rcases hne with h | h | h | h | h | h
    · exact h e1
    · exact h e2
    · exact h e3
    · exact h e4
    · exact h e5
    · exact h e6

theorem outputFile_by_clock_second_witness :
    outputFile ⟨2024, 1, 2, 3, 4, 5, 0⟩ = outputFile ⟨2024, 1, 2, 3, 4, 5, 999999999⟩
    ∧ outputFile ⟨2024, 1, 2, 3, 4, 5, 0⟩ ≠ outputFile ⟨2024, 1, 2, 3, 4, 6, 0⟩ :=
  ⟨(outputFile_by_clock_second ⟨2024, 1, 2, 3, 4, 5, 0⟩ ⟨2024, 1, 2, 3, 4, 5, 999999999⟩
      (by decide) (by decide)).2.2.1 rfl rfl rfl rfl rfl rfl,
   (outputFile_by_clock_second ⟨2024, 1, 2, 3, 4, 5, 0⟩ ⟨2024, 1, 2, 3, 4, 6, 0⟩
      (by decide) (by decide)).2.2.2 (by decide)⟩
